import Mathlib

/-!
Node controller: CoreDNS `NodeHosts` reconciliation.

A shallow embedding of `pkg/node/controller.go` and a verification of its
host-table behaviour.

* Go strings are modelled by their sequence of code points (`Str`).
* A Go `map[string]string` is modelled by an association list with pairwise
  distinct keys (`GoMap`); the unspecified order of a `range` loop over a map
  is an explicit parameter (`RangeOrder`).
* The collaborators (config-map client, secret client) are modelled by a
  `World`; every handler returns the world after the call together with the
  collaborator calls it made, the log records it emitted and its return value.
-/

namespace NodeController

/-! ## Strings -/

/-- A Go string, as the sequence of its code points. -/
abbrev Str := List Char

/-- Go `unicode.IsSpace`: the Unicode White_Space property. -/
def isSpace (c : Char) : Bool :=
  let n := c.toNat
  (0x09 ≤ n && n ≤ 0x0D) || n == 0x20 || n == 0x85 || n == 0xA0 || n == 0x1680 ||
    (0x2000 ≤ n && n ≤ 0x200A) || n == 0x2028 || n == 0x2029 || n == 0x202F ||
    n == 0x205F || n == 0x3000

/-- Go `strings.Split(s, sep)` for a one-character separator (the controller
only splits on the newline): the pieces of `s` between occurrences of `sep`.
The result is never empty; `Split "" sep = [""]`. -/
def Split : Str → Char → List Str
  | [], _ => [[]]
  | c :: cs, sep =>
    if c = sep then [] :: Split cs sep
    else
      match Split cs sep with
      | [] => [[c]]
      | piece :: pieces => (c :: piece) :: pieces

/-- Scanner behind `Fields`: `cur` is the field read so far. -/
def fieldsFrom : Str → Str → List Str
  | cur, [] => if cur = [] then [] else [cur]
  | cur, c :: cs =>
    if isSpace c then
      if cur = [] then fieldsFrom [] cs else cur :: fieldsFrom [] cs
    else fieldsFrom (cur ++ [c]) cs

/-- Go `strings.Fields(s)`: the maximal runs of non-space characters of `s`. -/
def Fields (s : Str) : List Str := fieldsFrom [] s

/-! ## Maps -/

/-- A Go `map[string]string`: an association list of (key, value) pairs. Every
map built by `GoMap.set` from the empty map has pairwise distinct keys. -/
abbrev GoMap := List (Str × Str)

/-- Map lookup with presence: `v, ok := m[k]`. -/
def GoMap.find : GoMap → Str → Option Str
  | [], _ => none
  | (k', v) :: m, k => if k' = k then some v else GoMap.find m k

/-- Map assignment `m[k] = v`. -/
def GoMap.set : GoMap → Str → Str → GoMap
  | [], k, v => [(k, v)]
  | (k', v') :: m, k, v => if k' = k then (k, v) :: m else (k', v') :: GoMap.set m k v

/-- Map indexing `m[k]` on a possibly nil map: the zero value `""` when absent. -/
def index (m : Option GoMap) (k : Str) : Str :=
  match m with
  | none => []
  | some m => (GoMap.find m k).getD []

/-- The order in which one `range` loop enumerates a map: some permutation of
its entries. -/
structure RangeOrder where
  enum : GoMap → GoMap
  perm : ∀ m, (enum m).Perm m

/-- Enumeration in insertion order. -/
def RangeOrder.insertion : RangeOrder := ⟨fun m => m, fun m => List.Perm.refl m⟩

/-- Enumeration in reverse insertion order. -/
def RangeOrder.reversed : RangeOrder := ⟨fun m => m.reverse, fun m => List.reverse_perm m⟩

/-! ## Collaborators and observable effects -/

/-- A Go `error` value. -/
structure GoError where
  msg : Str
deriving DecidableEq

/-- Go `errors.Wrap(err, message)`: nil when `err` is nil. -/
def Wrap (err : Option GoError) (message : Str) : Option GoError :=
  match err with
  | none => none
  | some e => some ⟨message ++ ": ".data ++ e.msg⟩

/-- The part of `core.ConfigMap` the controller touches: `Data`, which may be
a nil map. -/
structure ConfigMap where
  Data : Option GoMap
deriving DecidableEq

/-- One element of `node.Status.Addresses`. -/
structure NodeAddress where
  AddrType : Str
  Address : Str
deriving DecidableEq

/-- The part of `core.Node` the controller reads. -/
structure Node where
  Name : Str
  Addresses : List NodeAddress
deriving DecidableEq

/-- A call made to a collaborator. -/
inductive Call
  | Get (namespace_ name : Str)
  | Update (configMap : ConfigMap)
  | Delete (nodeName : Str)
deriving DecidableEq

/-- A logrus record. -/
inductive LogRecord
  | Errorf (format : Str) (args : List Str)
  | Warnf (format : Str) (args : List Str)
  | Infof (format : Str) (args : List Str)
  | Warn (err : Option GoError)
deriving DecidableEq

/-- The collaborators as seen by the handler: what `configMaps.Get` returns
(`configMap`, `getErr`), whether `configMaps.Update` fails (`updateErr`) and
whether `nodepassword.Delete` fails (`deleteErr`). A successful update replaces
`configMap`. -/
structure World where
  configMap : Option ConfigMap
  getErr : Option GoError
  updateErr : Option GoError
  deleteErr : Option GoError
deriving DecidableEq

/-- What a handler call did: the world afterwards, the collaborator calls in
order, the log records in order, and the returned value. -/
structure Outcome (α : Type) where
  world : World
  calls : List Call
  logs : List LogRecord
  ret : α
deriving DecidableEq

/-- Type handler of the source. -/
structure handler where
  modCoreDNS : Bool
deriving DecidableEq

/-! ## `updateCoreDNSConfigMap` -/

/-- How the line loop (source lines 89-109) ends: by the early `return nil` of
line 105, or by running off the end with the table built so far. -/
inductive Scan
  | returned (logs : List LogRecord)
  | finished (hostsMap : GoMap) (logs : List LogRecord)
deriving DecidableEq

/-- The loop `for _, line := range strings.Split(hosts, "\n")` of
`updateCoreDNSConfigMap`, over the remaining lines, with the current
`hostsMap` and the records logged so far. -/
def scanLines (nodeName nodeAddress : Str) (removed : Bool) :
    List Str → GoMap → List LogRecord → Scan
  | [], hostsMap, logs => Scan.finished hostsMap logs
  | line :: rest, hostsMap, logs =>
    if line = [] then scanLines nodeName nodeAddress removed rest hostsMap logs
    else
      match Fields line with
      | [ip, host] =>
        if host = nodeName then
          if removed then scanLines nodeName nodeAddress removed rest hostsMap logs
          else if ip = nodeAddress then Scan.returned logs
          else scanLines nodeName nodeAddress removed rest (GoMap.set hostsMap host ip) logs
        else scanLines nodeName nodeAddress removed rest (GoMap.set hostsMap host ip) logs
      | _ =>
        scanLines nodeName nodeAddress removed rest hostsMap
          (logs ++ [LogRecord.Warnf "Unknown format for hosts line [%s]".data [line]])

/-- The loop `for host, ip := range hostsMap { newHosts += ip + " " + host + "\n" }`
over the entries in the order the range loop yields them. -/
def serialize (entries : GoMap) : Str :=
  entries.foldl (fun newHosts e => newHosts ++ (e.2 ++ " ".data ++ e.1 ++ "\n".data)) []

/-- The key of the blob in the config map. -/
def NodeHosts : Str := "NodeHosts".data

/-- Method `(h *handler) updateCoreDNSConfigMap(nodeName, nodeAddress, removed)`. -/
def updateCoreDNSConfigMap (ord : RangeOrder) (w : World) (nodeName nodeAddress : Str)
    (removed : Bool) : Outcome (Option GoError) :=
  if nodeAddress = [] ∧ removed = false then
    ⟨w, [], [LogRecord.Errorf ("No InternalIP found for node ".data ++ nodeName) []], none⟩
  else
    let get := Call.Get "kube-system".data "coredns".data
    match w.getErr, w.configMap with
    | some err, _ =>
      ⟨w, [get], [LogRecord.Warn (Wrap (some err) "Unable to fetch coredns config map".data)], none⟩
    | none, none =>
      ⟨w, [get], [LogRecord.Warn (Wrap none "Unable to fetch coredns config map".data)], none⟩
    | none, some configMap =>
      let hosts := index configMap.Data NodeHosts
      match scanLines nodeName nodeAddress removed (Split hosts '\n') [] [] with
      | Scan.returned logs => ⟨w, [get], logs, none⟩
      | Scan.finished hostsMap logs =>
        let hostsMap := if removed then hostsMap else GoMap.set hostsMap nodeName nodeAddress
        let newHosts := serialize (ord.enum hostsMap)
        let written : ConfigMap := ⟨some (GoMap.set (configMap.Data.getD []) NodeHosts newHosts)⟩
        match w.updateErr with
        | some err => ⟨w, [get, Call.Update written], logs, some err⟩
        | none =>
          let actionType := if removed then "Removed".data else "Updated".data
          ⟨{ w with configMap := some written }, [get, Call.Update written],
            logs ++ [LogRecord.Infof "%s coredns node hosts entry [%s]".data
              [actionType, nodeAddress ++ " ".data ++ nodeName]], none⟩

/-! ## `updateHosts`, `onChange`, `onRemove` -/

/-- The loop of `updateHosts` over `node.Status.Addresses`: the address of the
first entry of type `InternalIP`, or `""`. -/
def internalIP : List NodeAddress → Str
  | [] => []
  | address :: rest =>
    if address.AddrType = "InternalIP".data then address.Address else internalIP rest

/-- Method `(h *handler) removeNodePassword(nodeName)`: `nodepassword.Delete`. -/
def removeNodePassword (w : World) (nodeName : Str) : Outcome (Option GoError) :=
  ⟨w, [Call.Delete nodeName], [], w.deleteErr⟩

/-- Method `(h *handler) updateHosts(node, removed)`. -/
def updateHosts (h : handler) (ord : RangeOrder) (w : World) (node : Node) (removed : Bool) :
    Outcome (Option Node × Option GoError) :=
  let nodeName := node.Name
  let nodeAddress := internalIP node.Addresses
  let pw : Outcome Unit :=
    if removed then
      let r := removeNodePassword w nodeName
      match r.ret with
      | some err =>
        ⟨r.world, r.calls,
          [LogRecord.Warn (Wrap (some err) "Unable to remove node password".data)], ()⟩
      | none => ⟨r.world, r.calls, [], ()⟩
    else ⟨w, [], [], ()⟩
  if h.modCoreDNS then
    let r := updateCoreDNSConfigMap ord pw.world nodeName nodeAddress removed
    match r.ret with
    | some err => ⟨r.world, pw.calls ++ r.calls, pw.logs ++ r.logs, (none, some err)⟩
    | none => ⟨r.world, pw.calls ++ r.calls, pw.logs ++ r.logs, (none, none)⟩
  else ⟨pw.world, pw.calls, pw.logs, (none, none)⟩

/-- Method `(h *handler) onChange(key, node)`; `node` may be nil. -/
def onChange (h : handler) (ord : RangeOrder) (w : World) (_key : Str) (node : Option Node) :
    Outcome (Option Node × Option GoError) :=
  match node with
  | none => ⟨w, [], [], (none, none)⟩
  | some node => updateHosts h ord w node false

/-- Method `(h *handler) onRemove(key, node)`. -/
def onRemove (h : handler) (ord : RangeOrder) (w : World) (_key : Str) (node : Node) :
    Outcome (Option Node × Option GoError) :=
  updateHosts h ord w node true

/-! ## The codec as the specification words it -/

/-- One record of the specified `parse`: a blank record is skipped, a record
with exactly two whitespace-separated fields `address hostname` sets the
hostname's address (overwriting an earlier one), any other record is
dropped. -/
def addRecord (table : GoMap) (record : Str) : GoMap :=
  if record = [] then table
  else
    match Fields record with
    | [address, hostname] => GoMap.set table hostname address
    | _ => table

/-- The specified `parse`: split the blob into newline-separated records, skip
blank ones, drop a record that does not have exactly two whitespace-separated
fields (address, then hostname); later records overwrite earlier ones with
the same hostname. -/
def parse (blob : Str) : GoMap :=
  (Split blob '\n').foldl addRecord []

/-- Go `delete(m, k)`: the map without the key `k`. -/
def GoMap.delete : GoMap → Str → GoMap
  | [], _ => []
  | (k', v) :: m, k => if k' = k then GoMap.delete m k else (k', v) :: GoMap.delete m k

/-! ## Vocabulary of the statements -/

/-- The warning the line loop logs for a line: one record for a non-empty
line that does not have exactly two fields, none otherwise. -/
def lineWarning (line : Str) : List LogRecord :=
  if line = [] then []
  else
    match Fields line with
    | [_, _] => []
    | _ => [LogRecord.Warnf "Unknown format for hosts line [%s]".data [line]]

/-- The warnings of a whole pass over the lines, in order. -/
def warnings (lines : List Str) : List LogRecord := (lines.map lineWarning).flatten

/-- The line `address hostname` of an entry, without its newline. -/
def hostLine (e : Str × Str) : Str := e.2 ++ ' ' :: e.1

/-- The call `h.configMaps.Get("kube-system", "coredns", ...)`. -/
def getCall : Call := Call.Get "kube-system".data "coredns".data

/-- The fetched config map with `Data["NodeHosts"]` replaced by the
serialization of `table`, enumerated in the order `ord`. -/
def withTable (ord : RangeOrder) (configMap : ConfigMap) (table : GoMap) : ConfigMap :=
  ⟨some (GoMap.set (configMap.Data.getD []) NodeHosts (serialize (ord.enum table)))⟩

/-- The publish record: the action and the pair `address hostname` it names. -/
def publishRecord (actionType pair : Str) : LogRecord :=
  LogRecord.Infof "%s coredns node hosts entry [%s]".data [actionType, pair]

/-- The blob stored in a world: `Data["NodeHosts"]` of its config map. -/
def storedBlob (w : World) : Str :=
  match w.configMap with
  | none => []
  | some configMap => index configMap.Data NodeHosts

/-- The address a line gives `hostname`: the first field of a line with
exactly two fields whose second field is `hostname`. -/
def addressOn (hostname line : Str) : Option Str :=
  match Fields line with
  | [address, host] => if host = hostname then some address else none
  | _ => none

/-- The addresses on the well-formed lines of `blob` for `hostname`, in the
order of the lines. -/
def addressesFor (blob hostname : Str) : List Str :=
  (Split blob '\n').filterMap (addressOn hostname)

/-- The specified address extraction: the first entry of the address list
flagged `InternalIP`, if there is one. -/
def firstInternal (addresses : List NodeAddress) : Option NodeAddress :=
  addresses.find? (fun e => decide (e.AddrType = "InternalIP".data))

/-- The specified address of a node: that of the first `InternalIP` entry, or
`""` when no entry is flagged. -/
def specAddress (addresses : List NodeAddress) : Str :=
  match firstInternal addresses with
  | some e => e.Address
  | none => []

/-- The record `<address> SP <hostname> LF` of an entry. -/
def recordLine (e : Str × Str) : Str := e.2 ++ " ".data ++ e.1 ++ "\n".data

/-- The hostname a line names: the second field of a line with exactly two
fields. -/
def hostOn (line : Str) : Option Str :=
  match Fields line with
  | [_, host] => some host
  | _ => none

/-- The hostnames on the well-formed lines of `blob`, in the order of the
lines, with repetitions. -/
def hostnamesOf (blob : Str) : List Str := (Split blob '\n').filterMap hostOn

/-- No hostname or address of the table contains a newline. -/
def NewlineFree (t : GoMap) : Prop := ∀ e ∈ t, '\n' ∉ e.1 ∧ '\n' ∉ e.2

instance (t : GoMap) : Decidable (NewlineFree t) := by
  unfold NewlineFree; infer_instance

/-- The line has exactly two whitespace-separated fields. -/
def hasTwoFields (line : Str) : Bool := decide ((Fields line).length = 2)

/-- The line is malformed: not empty and without exactly two fields. -/
def isMalformed (line : Str) : Bool := decide (line ≠ []) && !hasTwoFields line

/-- Go `strings.Join(elems, sep)` for a one-character separator. -/
def Join : List Str → Char → Str
  | [], _ => []
  | [l], _ => l
  | l :: l' :: rest, sep => l ++ sep :: Join (l' :: rest) sep

/-- The blob with every line that does not have exactly two fields deleted. -/
def cleaned (blob : Str) : Str := Join ((Split blob '\n').filter hasTwoFields) '\n'

/-- The specified effect of an event with a usable address on a table: a
removal deletes the hostname, any other event sets its address. -/
def applyEvent (table : GoMap) (name address : Str) (removed : Bool) : GoMap :=
  if removed then GoMap.delete table name else GoMap.set table name address

/-- A non-empty string without whitespace. -/
def WellFormed (s : Str) : Prop := s ≠ [] ∧ ∀ c ∈ s, isSpace c = false

instance (s : Str) : Decidable (WellFormed s) := by
  unfold WellFormed; infer_instance

/-- Every hostname and address of the table is non-empty and whitespace-free. -/
def WellFormedTable (t : GoMap) : Prop := ∀ e ∈ t, WellFormed e.1 ∧ WellFormed e.2

instance (t : GoMap) : Decidable (WellFormedTable t) := by
  unfold WellFormedTable; infer_instance

/-- The keys of the table are pairwise distinct: it is a map. -/
def DistinctKeys (t : GoMap) : Prop := (t.map Prod.fst).Nodup

instance (t : GoMap) : Decidable (DistinctKeys t) := by
  unfold DistinctKeys; infer_instance

/-! ## Concrete inputs -/

/-- A world whose config map holds `blob` under `NodeHosts` and whose
collaborators all succeed. -/
def worldOf (blob : Str) : World :=
  ⟨some ⟨some [(NodeHosts, blob)]⟩, none, none, none⟩

/-- The table `{"node-a": "10.0.0.1", "node-b": "10.0.0.2"}`. -/
def twoNodes : GoMap := [("node-a".data, "10.0.0.1".data), ("node-b".data, "10.0.0.2".data)]

/-- The blob of the specification's scenario. -/
def scenarioBlob : Str := "10.0.0.1 node-a\n10.0.0.2 node-b\n".data

/-- A world whose fetch fails with "not found". -/
def worldNotFound : World := ⟨none, some ⟨"not found".data⟩, none, none⟩

/-- The node `node-a` with internal address `10.0.0.1`. -/
def nodeA : Node := ⟨"node-a".data, [⟨"InternalIP".data, "10.0.0.1".data⟩]⟩

/-- The world of the scenario blob in which the update fails with "conflict". -/
def worldConflict : World :=
  ⟨some ⟨some [(NodeHosts, scenarioBlob)]⟩, none, some ⟨"conflict".data⟩, none⟩

/-- The node `node-c` with internal address `10.0.0.3`. -/
def nodeC : Node := ⟨"node-c".data, [⟨"InternalIP".data, "10.0.0.3".data⟩]⟩

/-- The node `node-b` listing a hostname, two internal addresses and an
external one. -/
def nodeB : Node :=
  ⟨"node-b".data,
    [⟨"Hostname".data, "node-b".data⟩, ⟨"InternalIP".data, "10.0.0.2".data⟩,
      ⟨"InternalIP".data, "10.0.0.7".data⟩, ⟨"ExternalIP".data, "192.0.2.2".data⟩]⟩

/-- A blob with two well-formed lines for the hostname `n`. -/
def duplicateBlob : Str := "10.0.0.1 n\n10.0.0.2 n\n".data

/-- The blob of the specification's malformed-line example. -/
def malformedBlob : Str := "bad\n10.0.0.1 host1\n".data

/-- An address that carries a whole extra line: `6.6.6.6 zz`, a newline, then
`1.1.1.1`. -/
def addressWithLine : Str := "6.6.6.6 zz\n1.1.1.1".data

/-! ## Lemmas: strings -/

theorem isSpace_space : isSpace ' ' = true := by decide

theorem isSpace_newline : isSpace '\n' = true := by decide

theorem Split_ne_nil (s : Str) (sep : Char) : Split s sep ≠ [] := by
  cases s with
  | nil => simp [Split]
  | cons c cs =>
    simp only [Split]
    split
    · simp
    · split <;> simp

theorem Split_append_sep (l rest : Str) (sep : Char) (h : sep ∉ l) :
    Split (l ++ sep :: rest) sep = l :: Split rest sep := by
  induction l with
  | nil => simp [Split]
  | cons c cs ih =>
    have hc : c ≠ sep := fun e => h (by simp [e])
    have hcs : sep ∉ cs := fun e => h (by simp [e])
    rw [List.cons_append, Split, if_neg hc, ih hcs]

theorem fieldsFrom_append (w : Str) (hw : ∀ c ∈ w, isSpace c = false) (cur rest : Str) :
    fieldsFrom cur (w ++ rest) = fieldsFrom (cur ++ w) rest := by
  induction w generalizing cur with
  | nil => simp
  | cons c cs ih =>
    have hc : isSpace c = false := hw c (by simp)
    have hcs : ∀ d ∈ cs, isSpace d = false := fun d hd => hw d (by simp [hd])
    rw [List.cons_append, fieldsFrom, hc, if_neg Bool.false_ne_true, ih hcs]
    simp

theorem Fields_hostLine (e : Str × Str) (h1 : WellFormed e.1) (h2 : WellFormed e.2) :
    Fields (hostLine e) = [e.2, e.1] := by
  unfold Fields hostLine
  rw [fieldsFrom_append e.2 h2.2]
  simp only [List.nil_append, fieldsFrom, isSpace_space, if_true, if_neg h2.1]
  have := fieldsFrom_append e.1 h1.2 [] []
  simp only [List.append_nil, List.nil_append] at this
  rw [this]
  simp [fieldsFrom, h1.1]

theorem fieldsFrom_wellFormed (s cur : Str) (hcur : ∀ c ∈ cur, isSpace c = false) :
    ∀ f ∈ fieldsFrom cur s, WellFormed f := by
  induction s generalizing cur with
  | nil =>
    intro f hf
    simp only [fieldsFrom] at hf
    split at hf
    · simp at hf
    · rename_i hne
      simp only [List.mem_singleton] at hf
      subst hf
      exact ⟨hne, hcur⟩
  | cons c cs ih =>
    intro f hf
    simp only [fieldsFrom] at hf
    split at hf
    · split at hf
      · exact ih [] (by simp) f hf
      · rename_i hne
        rcases List.mem_cons.1 hf with h | h
        · subst h
          exact ⟨hne, hcur⟩
        · exact ih [] (by simp) f h
    · rename_i hsp
      refine ih (cur ++ [c]) ?_ f hf
      intro d hd
      rcases List.mem_append.1 hd with h | h
      · exact hcur d h
      · simp only [List.mem_singleton] at h
        subst h
        simpa using hsp

theorem Fields_wellFormed (s : Str) : ∀ f ∈ Fields s, WellFormed f :=
  fieldsFrom_wellFormed s [] (by simp)

theorem hostLine_ne_nil (e : Str × Str) : hostLine e ≠ [] := by
  unfold hostLine
  simp

theorem newline_not_mem_hostLine (e : Str × Str) (h1 : WellFormed e.1) (h2 : WellFormed e.2) :
    '\n' ∉ hostLine e := by
  unfold hostLine
  intro h
  rcases List.mem_append.1 h with h | h
  · have := h2.2 _ h
    simp [isSpace_newline] at this
  · rcases List.mem_cons.1 h with h | h
    · exact absurd h (by decide)
    · have := h1.2 _ h
      simp [isSpace_newline] at this

theorem serialize_from (es : GoMap) (acc : Str) :
    es.foldl (fun newHosts e => newHosts ++ (e.2 ++ " ".data ++ e.1 ++ "\n".data)) acc
      = acc ++ serialize es := by
  induction es generalizing acc with
  | nil => simp [serialize]
  | cons e es ih =>
    simp only [serialize, List.foldl_cons, List.nil_append]
    rw [ih, ih (e.2 ++ " ".data ++ e.1 ++ "\n".data)]
    simp

theorem serialize_nil : serialize [] = [] := rfl

theorem serialize_cons (e : Str × Str) (es : GoMap) :
    serialize (e :: es) = hostLine e ++ '\n' :: serialize es := by
  simp only [serialize, List.foldl_cons, List.nil_append]
  rw [serialize_from]
  simp [hostLine, serialize]

theorem Split_serialize (es : GoMap) (hw : WellFormedTable es) :
    Split (serialize es) '\n' = es.map hostLine ++ [[]] := by
  induction es with
  | nil => simp [serialize, Split]
  | cons e es ih =>
    have he := hw e (by simp)
    have hes : WellFormedTable es := fun x hx => hw x (by simp [hx])
    rw [serialize_cons, Split_append_sep _ _ _ (newline_not_mem_hostLine e he.1 he.2), ih hes]
    simp

/-! ## Lemmas: maps -/

theorem find_set (m : GoMap) (k v k' : Str) :
    GoMap.find (GoMap.set m k v) k' = if k = k' then some v else GoMap.find m k' := by
  induction m with
  | nil => simp [GoMap.set, GoMap.find]
  | cons e m ih =>
    obtain ⟨ke, ve⟩ := e
    simp only [GoMap.set]
    by_cases h : ke = k
    · subst h
      by_cases h2 : ke = k' <;> simp [GoMap.find, h2]
    · simp only [if_neg h, GoMap.find, ih]
      by_cases h2 : ke = k'
      · subst h2
        simp [Ne.symm h]
      · simp [h2]

theorem find_eq_none_iff (m : GoMap) (k : Str) :
    GoMap.find m k = none ↔ k ∉ m.map Prod.fst := by
  induction m with
  | nil => simp [GoMap.find]
  | cons e m ih =>
    obtain ⟨ke, ve⟩ := e
    by_cases h : ke = k
    · simp [GoMap.find, h]
    · simp only [GoMap.find, if_neg h, ih, List.map_cons, List.mem_cons, not_or]
      exact ⟨fun hm => ⟨Ne.symm h, hm⟩, fun hm => hm.2⟩

theorem find_of_mem (m : GoMap) (hd : DistinctKeys m) (k v : Str) (h : (k, v) ∈ m) :
    GoMap.find m k = some v := by
  induction m with
  | nil => simp at h
  | cons e m ih =>
    obtain ⟨ke, ve⟩ := e
    have hd' : ke ∉ m.map Prod.fst ∧ DistinctKeys m := by
      simpa [DistinctKeys] using hd
    rcases List.mem_cons.1 h with h | h
    · simp only [Prod.mk.injEq] at h
      simp [GoMap.find, h.1, h.2]
    · have hk : ke ≠ k := by
        intro e
        subst e
        exact hd'.1 (List.mem_map.2 ⟨(ke, v), h, rfl⟩)
      simp [GoMap.find, hk, ih hd'.2 h]

theorem mem_of_find (m : GoMap) (k v : Str) (h : GoMap.find m k = some v) : (k, v) ∈ m := by
  induction m with
  | nil => simp [GoMap.find] at h
  | cons e m ih =>
    obtain ⟨ke, ve⟩ := e
    by_cases hk : ke = k
    · simp only [GoMap.find, if_pos hk, Option.some.injEq] at h
      simp [hk, h]
    · simp only [GoMap.find, if_neg hk] at h
      exact List.mem_cons_of_mem _ (ih h)

theorem find_perm (m₁ m₂ : GoMap) (hp : m₁.Perm m₂) (hd : DistinctKeys m₂) (k : Str) :
    GoMap.find m₁ k = GoMap.find m₂ k := by
  have hd₁ : DistinctKeys m₁ := (List.Perm.nodup_iff (hp.map Prod.fst)).2 hd
  cases h : GoMap.find m₂ k with
  | none =>
    rw [find_eq_none_iff] at h ⊢
    intro hm
    exact h ((hp.map Prod.fst).mem_iff.1 hm)
  | some v =>
    exact find_of_mem m₁ hd₁ k v (hp.mem_iff.2 (mem_of_find m₂ k v h))

theorem set_of_absent (m : GoMap) (k v : Str) (h : k ∉ m.map Prod.fst) :
    GoMap.set m k v = m ++ [(k, v)] := by
  induction m with
  | nil => simp [GoMap.set]
  | cons e m ih =>
    obtain ⟨ke, ve⟩ := e
    have h' : ke ≠ k ∧ k ∉ m.map Prod.fst := by
      simp only [List.map_cons, List.mem_cons, not_or] at h
      exact ⟨Ne.symm h.1, h.2⟩
    simp [GoMap.set, h'.1, ih h'.2]

theorem keys_set (m : GoMap) (k v : Str) :
    (GoMap.set m k v).map Prod.fst
      = if k ∈ m.map Prod.fst then m.map Prod.fst else m.map Prod.fst ++ [k] := by
  induction m with
  | nil => simp [GoMap.set]
  | cons e m ih =>
    obtain ⟨ke, ve⟩ := e
    by_cases h : ke = k
    · simp [GoMap.set, h]
    · simp only [GoMap.set, if_neg h, List.map_cons, ih, List.mem_cons, Ne.symm h, false_or]
      split <;> simp

theorem distinctKeys_set (m : GoMap) (k v : Str) (hd : DistinctKeys m) :
    DistinctKeys (GoMap.set m k v) := by
  unfold DistinctKeys at hd ⊢
  rw [keys_set]
  split
  · exact hd
  · rename_i h
    exact List.Nodup.append hd (List.nodup_singleton k) (by simpa using h)

theorem mem_set (m : GoMap) (k v : Str) (e : Str × Str) (h : e ∈ GoMap.set m k v) :
    e = (k, v) ∨ e ∈ m := by
  induction m with
  | nil =>
    simp only [GoMap.set, List.mem_singleton] at h
    exact Or.inl h
  | cons x m ih =>
    obtain ⟨kx, vx⟩ := x
    simp only [GoMap.set] at h
    split at h
    · rcases List.mem_cons.1 h with h | h
      · exact Or.inl h
      · exact Or.inr (List.mem_cons_of_mem _ h)
    · rcases List.mem_cons.1 h with h | h
      · exact Or.inr (by simp [h])
      · rcases ih h with h | h
        · exact Or.inl h
        · exact Or.inr (List.mem_cons_of_mem _ h)

theorem wellFormedTable_set (m : GoMap) (k v : Str) (hm : WellFormedTable m)
    (hk : WellFormed k) (hv : WellFormed v) : WellFormedTable (GoMap.set m k v) := by
  intro e he
  rcases mem_set m k v e he with h | h
  · subst h
    exact ⟨hk, hv⟩
  · exact hm e h

theorem find_delete (m : GoMap) (n k : Str) :
    GoMap.find (GoMap.delete m n) k = if k = n then none else GoMap.find m k := by
  induction m with
  | nil => simp [GoMap.delete, GoMap.find]
  | cons e m ih =>
    obtain ⟨ke, ve⟩ := e
    by_cases h : ke = n
    · subst h
      simp only [GoMap.delete, if_true, ih, GoMap.find]
      by_cases h2 : k = ke
      · simp [h2]
      · simp [h2, Ne.symm h2]
    · simp only [GoMap.delete, if_neg h, GoMap.find, ih]
      by_cases h2 : ke = k
      · subst h2
        simp [h]
      · simp [h2]

theorem delete_set_self (m : GoMap) (n v : Str) :
    GoMap.delete (GoMap.set m n v) n = GoMap.delete m n := by
  induction m with
  | nil => simp [GoMap.set, GoMap.delete]
  | cons e m ih =>
    obtain ⟨ke, ve⟩ := e
    by_cases h : ke = n
    · simp [GoMap.set, GoMap.delete, h]
    · simp [GoMap.set, GoMap.delete, h, ih]

theorem delete_set_other (m : GoMap) (n k v : Str) (hk : k ≠ n) :
    GoMap.delete (GoMap.set m k v) n = GoMap.set (GoMap.delete m n) k v := by
  induction m with
  | nil => simp [GoMap.set, GoMap.delete, hk]
  | cons e m ih =>
    obtain ⟨ke, ve⟩ := e
    by_cases h : ke = k
    · subst h
      simp [GoMap.set, GoMap.delete, hk]
    · by_cases h2 : ke = n
      · subst h2
        simp [GoMap.set, GoMap.delete, h, ih]
      · simp [GoMap.set, GoMap.delete, h, h2, ih]

theorem delete_sublist (m : GoMap) (n : Str) : (GoMap.delete m n).Sublist m := by
  induction m with
  | nil => simp [GoMap.delete]
  | cons e m ih =>
    obtain ⟨ke, ve⟩ := e
    simp only [GoMap.delete]
    split
    · exact ih.cons _
    · exact ih.cons₂ _

theorem distinctKeys_delete (m : GoMap) (n : Str) (hd : DistinctKeys m) :
    DistinctKeys (GoMap.delete m n) :=
  List.Nodup.sublist ((delete_sublist m n).map Prod.fst) hd

theorem wellFormedTable_delete (m : GoMap) (n : Str) (hm : WellFormedTable m) :
    WellFormedTable (GoMap.delete m n) :=
  fun e he => hm e ((delete_sublist m n).subset he)

theorem wellFormedTable_perm (m₁ m₂ : GoMap) (hp : m₁.Perm m₂) (hm : WellFormedTable m₂) :
    WellFormedTable m₁ :=
  fun e he => hm e (hp.mem_iff.1 he)

theorem distinctKeys_perm (m₁ m₂ : GoMap) (hp : m₁.Perm m₂) (hd : DistinctKeys m₂) :
    DistinctKeys m₁ :=
  (List.Perm.nodup_iff (hp.map Prod.fst)).2 hd

/-! ## Lemmas: the line loop against the specified `parse` -/

theorem Fields_nil : Fields [] = [] := rfl

theorem warnings_nil : warnings [] = [] := rfl

theorem warnings_cons (line : Str) (lines : List Str) :
    warnings (line :: lines) = lineWarning line ++ warnings lines := by
  simp [warnings]

theorem warnings_append (l₁ l₂ : List Str) :
    warnings (l₁ ++ l₂) = warnings l₁ ++ warnings l₂ := by
  simp [warnings]

theorem ne_nil_of_Fields_pair (line ip host : Str) (h : Fields line = [ip, host]) :
    line ≠ [] := by
  intro e
  subst e
  simp [Fields_nil] at h

/-- A line either is blank, or has exactly two fields, or is malformed. -/
theorem line_cases (line : Str) :
    line = [] ∨ (∃ ip host, Fields line = [ip, host]) ∨
      (line ≠ [] ∧ ∀ ip host, Fields line ≠ [ip, host]) := by
  by_cases hl : line = []
  · exact Or.inl hl
  · by_cases hp : ∃ ip host, Fields line = [ip, host]
    · exact Or.inr (Or.inl hp)
    · exact Or.inr (Or.inr ⟨hl, fun ip host e => hp ⟨ip, host, e⟩⟩)

theorem addRecord_blank (m : GoMap) : addRecord m [] = m := by
  simp [addRecord]

theorem addRecord_pair (m : GoMap) (line ip host : Str) (h : Fields line = [ip, host]) :
    addRecord m line = GoMap.set m host ip := by
  simp [addRecord, ne_nil_of_Fields_pair line ip host h, h]

theorem addRecord_bad (m : GoMap) (line : Str) (h : ∀ ip host, Fields line ≠ [ip, host]) :
    addRecord m line = m := by
  unfold addRecord
  split
  · rfl
  · split
    · rename_i ip host hf
      exact absurd hf (h ip host)
    · rfl

theorem lineWarning_blank : lineWarning [] = [] := by
  simp [lineWarning]

theorem lineWarning_pair (line ip host : Str) (h : Fields line = [ip, host]) :
    lineWarning line = [] := by
  simp [lineWarning, h]

theorem lineWarning_bad (line : Str) (hl : line ≠ []) (h : ∀ ip host, Fields line ≠ [ip, host]) :
    lineWarning line = [LogRecord.Warnf "Unknown format for hosts line [%s]".data [line]] := by
  unfold lineWarning
  rw [if_neg hl]
  split
  · rename_i ip host hf
    exact absurd hf (h ip host)
  · rfl

theorem scanLines_blank (n a : Str) (r : Bool) (rest : List Str) (m : GoMap)
    (logs : List LogRecord) :
    scanLines n a r ([] :: rest) m logs = scanLines n a r rest m logs := by
  rw [scanLines]
  simp

theorem scanLines_pair (n a : Str) (r : Bool) (line ip host : Str) (rest : List Str) (m : GoMap)
    (logs : List LogRecord) (h : Fields line = [ip, host]) :
    scanLines n a r (line :: rest) m logs
      = if host = n then
          if r then scanLines n a r rest m logs
          else if ip = a then Scan.returned logs
          else scanLines n a r rest (GoMap.set m host ip) logs
        else scanLines n a r rest (GoMap.set m host ip) logs := by
  rw [scanLines, if_neg (ne_nil_of_Fields_pair line ip host h)]
  simp only [h]

theorem scanLines_bad (n a : Str) (r : Bool) (line : Str) (rest : List Str) (m : GoMap)
    (logs : List LogRecord) (hl : line ≠ []) (h : ∀ ip host, Fields line ≠ [ip, host]) :
    scanLines n a r (line :: rest) m logs
      = scanLines n a r rest m
          (logs ++ [LogRecord.Warnf "Unknown format for hosts line [%s]".data [line]]) := by
  rw [scanLines, if_neg hl]
  split
  · rename_i ip host hf
    exact absurd hf (h ip host)
  · rfl

/-- A removal pass never returns early: it ends with the specified table of
the lines read, without the removed hostname, and one warning per malformed
line. -/
theorem scanLines_removed (n a : Str) (lines : List Str) (m : GoMap) (logs : List LogRecord) :
    scanLines n a true lines (GoMap.delete m n) logs
      = Scan.finished (GoMap.delete (lines.foldl addRecord m) n) (logs ++ warnings lines) := by
  induction lines generalizing m logs with
  | nil => simp [scanLines, warnings]
  | cons line rest ih =>
    rw [List.foldl_cons, warnings_cons]
    rcases line_cases line with hl | ⟨ip, host, hf⟩ | ⟨hl, hf⟩
    · subst hl
      rw [scanLines_blank, addRecord_blank, lineWarning_blank, ih]
      simp
    · rw [scanLines_pair n a true line ip host rest _ logs hf, addRecord_pair m line ip host hf,
        lineWarning_pair line ip host hf]
      by_cases hh : host = n
      · subst hh
        have := ih (GoMap.set m host ip) logs
        rw [delete_set_self] at this
        simpa using this
      · have := ih (GoMap.set m host ip) logs
        rw [delete_set_other m n host ip hh] at this
        simpa [hh] using this
    · rw [scanLines_bad n a true line rest _ logs hl hf, addRecord_bad m line hf,
        lineWarning_bad line hl hf, ih]
      simp

/-- A non-removal pass that meets no line `nodeAddress nodeName` runs to the
end and builds exactly the specified table of the lines read. -/
theorem scanLines_added_finished (n a : Str) (lines : List Str) (m : GoMap)
    (logs : List LogRecord) (h : ∀ line ∈ lines, Fields line ≠ [a, n]) :
    scanLines n a false lines m logs
      = Scan.finished (lines.foldl addRecord m) (logs ++ warnings lines) := by
  induction lines generalizing m logs with
  | nil => simp [scanLines, warnings]
  | cons line rest ih =>
    have hrest : ∀ l ∈ rest, Fields l ≠ [a, n] := fun l hl => h l (by simp [hl])
    have hline : Fields line ≠ [a, n] := h line (by simp)
    rw [List.foldl_cons, warnings_cons]
    rcases line_cases line with hl | ⟨ip, host, hf⟩ | ⟨hl, hf⟩
    · subst hl
      rw [scanLines_blank, addRecord_blank, lineWarning_blank, ih _ _ hrest]
      simp
    · rw [scanLines_pair n a false line ip host rest _ logs hf, addRecord_pair m line ip host hf,
        lineWarning_pair line ip host hf]
      by_cases hh : host = n
      · subst hh
        have hip : ip ≠ a := by
          intro e
          subst e
          exact hline hf
        simpa [hip] using ih (GoMap.set m host ip) logs hrest
      · simpa [hh] using ih (GoMap.set m host ip) logs hrest
    · rw [scanLines_bad n a false line rest _ logs hl hf, addRecord_bad m line hf,
        lineWarning_bad line hl hf, ih _ _ hrest]
      simp

/-- A non-removal pass returns early at the first line `nodeAddress nodeName`. -/
theorem scanLines_added_returned (n a : Str) (pre post : List Str) (line : Str) (m : GoMap)
    (logs : List LogRecord) (hpre : ∀ l ∈ pre, Fields l ≠ [a, n]) (hline : Fields line = [a, n]) :
    scanLines n a false (pre ++ line :: post) m logs = Scan.returned (logs ++ warnings pre) := by
  induction pre generalizing m logs with
  | nil =>
    rw [List.nil_append, scanLines_pair n a false line a n post m logs hline]
    simp [warnings]
  | cons l rest ih =>
    have hrest : ∀ x ∈ rest, Fields x ≠ [a, n] := fun x hx => hpre x (by simp [hx])
    have hl1 : Fields l ≠ [a, n] := hpre l (by simp)
    rw [List.cons_append, warnings_cons]
    rcases line_cases l with hl | ⟨ip, host, hf⟩ | ⟨hl, hf⟩
    · subst hl
      rw [scanLines_blank, lineWarning_blank, ih _ _ hrest]
      simp
    · rw [scanLines_pair n a false l ip host _ _ logs hf, lineWarning_pair l ip host hf]
      by_cases hh : host = n
      · subst hh
        have hip : ip ≠ a := by
          intro e
          subst e
          exact hl1 hf
        simpa [hip] using ih (GoMap.set m host ip) logs hrest
      · simpa [hh] using ih (GoMap.set m host ip) logs hrest
    · rw [scanLines_bad n a false l _ _ logs hl hf, lineWarning_bad l hl hf, ih _ _ hrest]
      simp

/-- Reading the lines of well-formed entries sets each entry in turn. -/
theorem foldl_addRecord_hostLines (es : GoMap) (hw : WellFormedTable es) (m : GoMap) :
    (es.map hostLine ++ [[]]).foldl addRecord m = es.foldl (fun t e => GoMap.set t e.1 e.2) m := by
  induction es generalizing m with
  | nil => simp [addRecord]
  | cons e es ih =>
    have he := hw e (by simp)
    have hes : WellFormedTable es := fun x hx => hw x (by simp [hx])
    simp only [List.map_cons, List.cons_append, List.foldl_cons]
    rw [ih hes]
    congr 1
    simp [addRecord, hostLine_ne_nil, Fields_hostLine e he.1 he.2]

/-- Setting entries with fresh, pairwise distinct keys appends them in order. -/
theorem foldl_set_fresh (es m : GoMap) (hd : DistinctKeys (m ++ es)) :
    es.foldl (fun t e => GoMap.set t e.1 e.2) m = m ++ es := by
  induction es generalizing m with
  | nil => simp
  | cons e es ih =>
    have hfresh : e.1 ∉ m.map Prod.fst := by
      unfold DistinctKeys at hd
      rw [List.map_append, List.nodup_append] at hd
      intro hm
      exact hd.2.2 hm (by simp)
    have hd' : DistinctKeys ((m ++ [e]) ++ es) := by simpa using hd
    rw [List.foldl_cons, set_of_absent m e.1 e.2 hfresh, ih _ hd']
    simp

/-- Round trip at the level of the codec: parsing the serialization of a
well-formed table with distinct hostnames gives back its entries, in the
order they were written. -/
theorem parse_serialize (es : GoMap) (hw : WellFormedTable es) (hd : DistinctKeys es) :
    parse (serialize es) = es := by
  unfold parse
  rw [Split_serialize es hw, foldl_addRecord_hostLines es hw, foldl_set_fresh es [] (by simpa using hd)]
  simp

/-- Every table the specified `parse` builds has distinct hostnames. -/
theorem distinctKeys_foldl_addRecord (lines : List Str) (m : GoMap) (hd : DistinctKeys m) :
    DistinctKeys (lines.foldl addRecord m) := by
  induction lines generalizing m with
  | nil => simpa using hd
  | cons line rest ih =>
    rw [List.foldl_cons]
    apply ih
    unfold addRecord
    split
    · exact hd
    · split
      · exact distinctKeys_set _ _ _ hd
      · exact hd

/-- Every entry the specified `parse` builds is non-empty and whitespace-free. -/
theorem wellFormedTable_foldl_addRecord (lines : List Str) (m : GoMap) (hw : WellFormedTable m) :
    WellFormedTable (lines.foldl addRecord m) := by
  induction lines generalizing m with
  | nil => simpa using hw
  | cons line rest ih =>
    rw [List.foldl_cons]
    apply ih
    unfold addRecord
    split
    · exact hw
    · split
      · rename_i address hostname hf
        have hfs := Fields_wellFormed line
        rw [hf] at hfs
        exact wellFormedTable_set _ _ _ hw (hfs hostname (by simp)) (hfs address (by simp))
      · exact hw

theorem distinctKeys_parse (blob : Str) : DistinctKeys (parse blob) :=
  distinctKeys_foldl_addRecord _ [] (by simp [DistinctKeys])

theorem wellFormedTable_parse (blob : Str) : WellFormedTable (parse blob) :=
  wellFormedTable_foldl_addRecord _ [] (by simp [WellFormedTable])

/-! ## Lemmas: the outcome of `updateCoreDNSConfigMap` -/

theorem index_withTable (ord : RangeOrder) (cm : ConfigMap) (table : GoMap) :
    index (withTable ord cm table).Data NodeHosts = serialize (ord.enum table) := by
  simp [withTable, index, find_set]

/-- The outcome of a pass whose line loop runs to the end. -/
theorem updateCoreDNSConfigMap_of_finished (ord : RangeOrder) (w : World) (cm : ConfigMap)
    (n a : Str) (removed : Bool) (m : GoMap) (logs : List LogRecord)
    (hev : ¬(a = [] ∧ removed = false)) (hget : w.getErr = none) (hcm : w.configMap = some cm)
    (hscan : scanLines n a removed (Split (index cm.Data NodeHosts) '\n') [] []
      = Scan.finished m logs) :
    updateCoreDNSConfigMap ord w n a removed
      = match w.updateErr with
        | some err =>
          ⟨w, [getCall, Call.Update (withTable ord cm (if removed then m else GoMap.set m n a))],
            logs, some err⟩
        | none =>
          ⟨{ w with configMap := some (withTable ord cm (if removed then m else GoMap.set m n a)) },
            [getCall, Call.Update (withTable ord cm (if removed then m else GoMap.set m n a))],
            logs ++ [publishRecord (if removed then "Removed".data else "Updated".data)
              (a ++ " ".data ++ n)], none⟩ := by
  unfold updateCoreDNSConfigMap
  rw [if_neg hev]
  simp only [hget, hcm, hscan]
  cases w.updateErr <;> rfl

/-- The outcome of a pass whose line loop returns early. -/
theorem updateCoreDNSConfigMap_of_returned (ord : RangeOrder) (w : World) (cm : ConfigMap)
    (n a : Str) (removed : Bool) (logs : List LogRecord)
    (hev : ¬(a = [] ∧ removed = false)) (hget : w.getErr = none) (hcm : w.configMap = some cm)
    (hscan : scanLines n a removed (Split (index cm.Data NodeHosts) '\n') [] []
      = Scan.returned logs) :
    updateCoreDNSConfigMap ord w n a removed = ⟨w, [getCall], logs, none⟩ := by
  unfold updateCoreDNSConfigMap
  rw [if_neg hev]
  simp only [hget, hcm, hscan]
  rfl

/-- The line loop of a removal over a blob. -/
theorem scanLines_removed_blob (n a blob : Str) :
    scanLines n a true (Split blob '\n') [] []
      = Scan.finished (GoMap.delete (parse blob) n) (warnings (Split blob '\n')) := by
  have := scanLines_removed n a (Split blob '\n') [] []
  simpa [GoMap.delete, parse] using this

/-- Either no line reads `a n`, or there is a first one. -/
theorem first_match (n a : Str) (lines : List Str) :
    (∀ l ∈ lines, Fields l ≠ [a, n]) ∨
      ∃ pre line post, lines = pre ++ line :: post ∧ (∀ l ∈ pre, Fields l ≠ [a, n]) ∧
        Fields line = [a, n] := by
  induction lines with
  | nil => exact Or.inl (by simp)
  | cons l rest ih =>
    by_cases hl : Fields l = [a, n]
    · exact Or.inr ⟨[], l, rest, by simp, by simp, hl⟩
    · rcases ih with h | ⟨pre, line, post, he, hp, hf⟩
      · refine Or.inl ?_
        intro x hx
        rcases List.mem_cons.1 hx with hx | hx
        · subst hx
          exact hl
        · exact h x hx
      · refine Or.inr ⟨l :: pre, line, post, by simp [he], ?_, hf⟩
        intro x hx
        rcases List.mem_cons.1 hx with hx | hx
        · subst hx
          exact hl
        · exact hp x hx

theorem delete_of_absent (m : GoMap) (n : Str) (h : GoMap.find m n = none) :
    GoMap.delete m n = m := by
  induction m with
  | nil => rfl
  | cons e m ih =>
    obtain ⟨ke, ve⟩ := e
    by_cases hk : ke = n
    · simp [GoMap.find, hk] at h
    · simp only [GoMap.find, if_neg hk] at h
      simp [GoMap.delete, hk, ih h]

theorem warnings_hostLines (es : GoMap) (hw : WellFormedTable es) :
    warnings (es.map hostLine ++ [[]]) = [] := by
  induction es with
  | nil => simp [warnings, lineWarning]
  | cons e es ih =>
    have he := hw e (by simp)
    have hes : WellFormedTable es := fun x hx => hw x (by simp [hx])
    rw [List.map_cons, List.cons_append, warnings_cons,
      lineWarning_pair _ _ _ (Fields_hostLine e he.1 he.2), ih hes]
    rfl

/-- In the serialization of a well-formed table with distinct hostnames, a
line reads `a n` only if the table maps `n` to `a`. -/
theorem no_match_serialize (es : GoMap) (hw : WellFormedTable es) (hd : DistinctKeys es)
    (n a : Str) (h : GoMap.find es n ≠ some a) :
    ∀ l ∈ Split (serialize es) '\n', Fields l ≠ [a, n] := by
  rw [Split_serialize es hw]
  intro l hl
  rcases List.mem_append.1 hl with hl | hl
  · obtain ⟨e, he, rfl⟩ := List.mem_map.1 hl
    have hwe := hw e he
    rw [Fields_hostLine e hwe.1 hwe.2]
    intro heq
    simp only [List.cons.injEq, and_true] at heq
    apply h
    apply find_of_mem es hd
    rw [← heq.1, ← heq.2]
    exact he
  · simp only [List.mem_singleton] at hl
    subst hl
    simp [Fields_nil]

/-- The two ways a non-removal pass with an address can go, over a fetched
config map: it meets no line `a n` and writes the specified table of the blob
with `n` set to `a`, or it meets one and returns without a write. -/
theorem updateCoreDNSConfigMap_added_cases (ord : RangeOrder) (w : World) (cm : ConfigMap)
    (n a : Str) (ha : a ≠ []) (hget : w.getErr = none) (hcm : w.configMap = some cm) :
    ((∀ l ∈ Split (index cm.Data NodeHosts) '\n', Fields l ≠ [a, n]) ∧
      updateCoreDNSConfigMap ord w n a false
        = match w.updateErr with
          | some err =>
            ⟨w, [getCall, Call.Update (withTable ord cm
                (GoMap.set (parse (index cm.Data NodeHosts)) n a))],
              warnings (Split (index cm.Data NodeHosts) '\n'), some err⟩
          | none =>
            ⟨{ w with configMap := some (withTable ord cm
                (GoMap.set (parse (index cm.Data NodeHosts)) n a)) },
              [getCall, Call.Update (withTable ord cm
                (GoMap.set (parse (index cm.Data NodeHosts)) n a))],
              warnings (Split (index cm.Data NodeHosts) '\n')
                ++ [publishRecord "Updated".data (a ++ " ".data ++ n)], none⟩) ∨
    ((∃ l ∈ Split (index cm.Data NodeHosts) '\n', Fields l = [a, n]) ∧
      ∃ logs, updateCoreDNSConfigMap ord w n a false = ⟨w, [getCall], logs, none⟩) := by
  have hev : ¬(a = [] ∧ false = false) := fun h => ha h.1
  rcases first_match n a (Split (index cm.Data NodeHosts) '\n') with h | ⟨pre, line, post, he, hp, hf⟩
  · left
    refine ⟨h, ?_⟩
    have hscan := scanLines_added_finished n a _ [] [] h
    rw [updateCoreDNSConfigMap_of_finished ord w cm n a false _ _ hev hget hcm hscan]
    simp [parse]
  · right
    refine ⟨⟨line, by simp [he], hf⟩, warnings pre, ?_⟩
    have hscan := scanLines_added_returned n a pre post line [] [] hp hf
    rw [← he] at hscan
    rw [updateCoreDNSConfigMap_of_returned ord w cm n a false _ hev hget hcm hscan]
    simp

theorem addressOn_eq_some_iff (h line ip : Str) :
    addressOn h line = some ip ↔ Fields line = [ip, h] := by
  unfold addressOn
  split
  · rename_i address host hf
    rw [hf]
    by_cases hh : host = h
    · subst hh
      simp
    · simp [hh]
  · rename_i hf
    constructor
    · intro e
      simp at e
    · intro e
      exact absurd e (hf ip h)

theorem addressesFor_eq_nil_iff (blob h : Str) :
    addressesFor blob h = [] ↔ ∀ l ∈ Split blob '\n', ∀ ip, Fields l ≠ [ip, h] := by
  unfold addressesFor
  rw [List.filterMap_eq_nil_iff]
  constructor
  · intro hall l hl ip hf
    have := hall l hl
    rw [(addressOn_eq_some_iff h l ip).2 hf] at this
    simp at this
  · intro hall l hl
    cases hq : addressOn h l with
    | none => rfl
    | some ip => exact absurd ((addressOn_eq_some_iff h l ip).1 hq) (hall l hl ip)

/-- The specified table maps a hostname to the address on the last
well-formed line for it among the lines read, or as before if there is none. -/
theorem find_foldl_addRecord (lines : List Str) (m : GoMap) (h : Str) :
    GoMap.find (lines.foldl addRecord m) h
      = ((lines.filterMap (addressOn h)).getLast?).or (GoMap.find m h) := by
  induction lines generalizing m with
  | nil => simp
  | cons line rest ih =>
    rw [List.foldl_cons, ih, ← List.singleton_append, List.filterMap_append, List.getLast?_append]
    cases hr : (rest.filterMap (addressOn h)).getLast? with
    | some ip => simp
    | none =>
      simp only [Option.none_or]
      rcases line_cases line with hl | ⟨ip, host, hf⟩ | ⟨hl, hf⟩
      · subst hl
        simp [addRecord_blank, addressOn, Fields_nil]
      · rw [addRecord_pair m line ip host hf, find_set]
        by_cases hh : host = h
        · subst hh
          simp [addressOn, hf]
        · simp [addressOn, hf, hh]
      · rw [addRecord_bad m line hf]
        have : addressOn h line = none := by
          cases hq : addressOn h line with
          | none => rfl
          | some ip => exact absurd ((addressOn_eq_some_iff h line ip).1 hq) (hf ip h)
        simp [this]

theorem find_parse (blob h : Str) :
    GoMap.find (parse blob) h = (addressesFor blob h).getLast? := by
  unfold parse addressesFor
  rw [find_foldl_addRecord]
  simp [GoMap.find]

theorem mem_warnings (lines : List Str) (x : LogRecord) (h : x ∈ warnings lines) :
    ∃ line, x = LogRecord.Warnf "Unknown format for hosts line [%s]".data [line] := by
  unfold warnings at h
  rw [List.mem_flatten] at h
  obtain ⟨ws, hws, hx⟩ := h
  obtain ⟨line, _, rfl⟩ := List.mem_map.1 hws
  unfold lineWarning at hx
  split at hx
  · simp at hx
  · split at hx
    · simp at hx
    · exact ⟨line, by simpa using hx⟩

/-- What a pass that makes an update call did: the fetch succeeded, the line
loop ran to the end over the fetched blob and built the specified table
(without `n` for a removal), and the update carried the fetched config map
with the serialization of that table (with `n` set to `a` for a non-removal). -/
theorem updateCoreDNSConfigMap_written (ord : RangeOrder) (w : World) (n a : Str)
    (removed : Bool) (written : ConfigMap)
    (h : Call.Update written ∈ (updateCoreDNSConfigMap ord w n a removed).calls) :
    ∃ cm m, w.getErr = none ∧ w.configMap = some cm ∧
      scanLines n a removed (Split (index cm.Data NodeHosts) '\n') [] []
        = Scan.finished m (warnings (Split (index cm.Data NodeHosts) '\n')) ∧
      m = (if removed then GoMap.delete (parse (index cm.Data NodeHosts)) n
        else parse (index cm.Data NodeHosts)) ∧
      written = withTable ord cm (if removed then m else GoMap.set m n a) ∧
      updateCoreDNSConfigMap ord w n a removed
        = match w.updateErr with
          | some err =>
            ⟨w, [getCall, Call.Update written], warnings (Split (index cm.Data NodeHosts) '\n'),
              some err⟩
          | none =>
            ⟨{ w with configMap := some written }, [getCall, Call.Update written],
              warnings (Split (index cm.Data NodeHosts) '\n')
                ++ [publishRecord (if removed then "Removed".data else "Updated".data)
                  (a ++ " ".data ++ n)], none⟩ := by
  by_cases hev : a = [] ∧ removed = false
  · simp [updateCoreDNSConfigMap, hev] at h
  · rcases Option.eq_none_or_eq_some w.getErr with hget | ⟨err, hget⟩
    swap
    · exfalso
      unfold updateCoreDNSConfigMap at h
      rw [if_neg hev] at h
      simp [hget] at h
    rcases Option.eq_none_or_eq_some w.configMap with hcm | ⟨cm, hcm⟩
    · exfalso
      unfold updateCoreDNSConfigMap at h
      rw [if_neg hev] at h
      simp [hget, hcm] at h
    cases removed with
    | true =>
      have hscan := scanLines_removed_blob n a (index cm.Data NodeHosts)
      have hout := updateCoreDNSConfigMap_of_finished ord w cm n a true _ _ hev hget hcm hscan
      have hw : written = withTable ord cm
          (if true = true then GoMap.delete (parse (index cm.Data NodeHosts)) n
            else GoMap.set (GoMap.delete (parse (index cm.Data NodeHosts)) n) n a) := by
        rw [hout] at h
        rcases Option.eq_none_or_eq_some w.updateErr with hu | ⟨e, hu⟩ <;> rw [hu] at h <;>
          simpa [getCall] using h
      refine ⟨cm, _, hget, hcm, hscan, by simp, hw, ?_⟩
      rw [hout, hw]
    | false =>
      rcases first_match n a (Split (index cm.Data NodeHosts) '\n') with
        hno | ⟨pre, line, post, he, hp, hf⟩
      · have hscan := scanLines_added_finished n a _ [] [] hno
        rw [List.nil_append] at hscan
        have hout := updateCoreDNSConfigMap_of_finished ord w cm n a false _ _ hev hget hcm hscan
        have hw : written = withTable ord cm
            (if false = true then List.foldl addRecord [] (Split (index cm.Data NodeHosts) '\n')
              else GoMap.set
                (List.foldl addRecord [] (Split (index cm.Data NodeHosts) '\n')) n a) := by
          rw [hout] at h
          rcases Option.eq_none_or_eq_some w.updateErr with hu | ⟨e, hu⟩ <;> rw [hu] at h <;>
            simpa [getCall] using h
        refine ⟨cm, _, hget, hcm, hscan, by simp [parse], hw, ?_⟩
        rw [hout, hw]
      · exfalso
        have hscan := scanLines_added_returned n a pre post line [] [] hp hf
        rw [← he] at hscan
        rw [updateCoreDNSConfigMap_of_returned ord w cm n a false _ hev hget hcm hscan] at h
        simp [getCall] at h

/-- Parsing what the serialization loop wrote, in any enumeration order, for a
well-formed table with distinct hostnames gives the same mapping. -/
theorem find_parse_serialize_enum (ord : RangeOrder) (table : GoMap)
    (hw : WellFormedTable table) (hd : DistinctKeys table) (k : Str) :
    GoMap.find (parse (serialize (ord.enum table))) k = GoMap.find table k := by
  have hp := ord.perm table
  rw [parse_serialize _ (wellFormedTable_perm _ _ hp hw) (distinctKeys_perm _ _ hp hd)]
  exact find_perm _ _ hp hd k

/-- After a removal of `n` whose fetch and update succeed, the stored blob
parses to the specified table of the fetched blob without `n`. -/
theorem find_parse_stored_after_removal (ord : RangeOrder) (w : World) (cm : ConfigMap)
    (n addr : Str) (hget : w.getErr = none) (hcm : w.configMap = some cm)
    (hupd : w.updateErr = none) (k : Str) :
    GoMap.find (parse (storedBlob (updateCoreDNSConfigMap ord w n addr true).world)) k
      = GoMap.find (GoMap.delete (parse (index cm.Data NodeHosts)) n) k := by
  have hev : ¬(addr = [] ∧ true = false) := fun h => by simp at h
  have hscan := scanLines_removed_blob n addr (index cm.Data NodeHosts)
  rw [updateCoreDNSConfigMap_of_finished ord w cm n addr true _ _ hev hget hcm hscan, hupd]
  simp only [if_true, storedBlob, index_withTable]
  exact find_parse_serialize_enum ord _
    (wellFormedTable_delete _ n (wellFormedTable_parse (index cm.Data NodeHosts)))
    (distinctKeys_delete _ n (distinctKeys_parse (index cm.Data NodeHosts))) k

/-! ## Lemmas: the dispatcher -/

theorem internalIP_eq_specAddress (addresses : List NodeAddress) :
    internalIP addresses = specAddress addresses := by
  induction addresses with
  | nil => rfl
  | cons e rest ih =>
    unfold specAddress firstInternal at ih ⊢
    by_cases he : e.AddrType = "InternalIP".data
    · simp [internalIP, he]
    · simp only [internalIP, if_neg he, ih, List.find?_cons, he, decide_False]
      simp

theorem firstInternal_append (pre post : List NodeAddress) (e : NodeAddress)
    (hpre : ∀ x ∈ pre, x.AddrType ≠ "InternalIP".data) (he : e.AddrType = "InternalIP".data) :
    firstInternal (pre ++ e :: post) = some e := by
  induction pre with
  | nil => simp [firstInternal, he]
  | cons x rest ih =>
    have hx := hpre x (by simp)
    have hrest : ∀ y ∈ rest, y.AddrType ≠ "InternalIP".data := fun y hy => hpre y (by simp [hy])
    unfold firstInternal at ih ⊢
    simp only [List.cons_append, List.find?_cons, hx, decide_False]
    exact ih hrest

/-- The collaborator calls of `updateCoreDNSConfigMap` are a fetch, possibly
followed by an update: never a credential delete. -/
theorem calls_of_updateCoreDNSConfigMap (ord : RangeOrder) (w : World) (n a : Str)
    (removed : Bool) :
    ∀ c ∈ (updateCoreDNSConfigMap ord w n a removed).calls,
      c = getCall ∨ ∃ written, c = Call.Update written := by
  intro c hc
  obtain ⟨cm, ge, ue, de⟩ := w
  unfold updateCoreDNSConfigMap at hc
  split at hc
  · simp at hc
  · cases ge with
    | some err =>
      simp only [List.mem_singleton] at hc
      exact Or.inl hc
    | none =>
      cases cm with
      | none =>
        simp only [List.mem_singleton] at hc
        exact Or.inl hc
      | some configMap =>
        simp only at hc
        split at hc
        · simp only [List.mem_singleton] at hc
          exact Or.inl hc
        · cases ue with
          | none =>
            simp only [List.mem_cons, List.mem_singleton, List.not_mem_nil, or_false] at hc
            rcases hc with hc | hc
            · exact Or.inl hc
            · exact Or.inr ⟨_, hc⟩
          | some err =>
            simp only [List.mem_cons, List.mem_singleton, List.not_mem_nil, or_false] at hc
            rcases hc with hc | hc
            · exact Or.inl hc
            · exact Or.inr ⟨_, hc⟩

/-- The pass does not look at the credential store: changing whether
`nodepassword.Delete` fails changes nothing but that field of the world. -/
theorem updateCoreDNSConfigMap_deleteErr (ord : RangeOrder) (w : World) (d : Option GoError)
    (n a : Str) (removed : Bool) :
    updateCoreDNSConfigMap ord { w with deleteErr := d } n a removed
      = { updateCoreDNSConfigMap ord w n a removed with
          world := { (updateCoreDNSConfigMap ord w n a removed).world with deleteErr := d } } := by
  obtain ⟨cm, ge, ue, de⟩ := w
  unfold updateCoreDNSConfigMap
  split
  · rfl
  · cases ge with
    | some err => rfl
    | none =>
      cases cm with
      | none => rfl
      | some configMap =>
        simp only
        split
        · rfl
        · cases ue <;> rfl

/-- The outcome of `updateHosts` in terms of the pass it drives. -/
theorem updateHosts_eq (h : handler) (ord : RangeOrder) (w : World) (node : Node)
    (removed : Bool) :
    (updateHosts h ord w node removed).world
        = (if h.modCoreDNS then
            (updateCoreDNSConfigMap ord w node.Name (internalIP node.Addresses) removed).world
          else w) ∧
    (updateHosts h ord w node removed).calls
        = (if removed then [Call.Delete node.Name] else [])
          ++ (if h.modCoreDNS then
            (updateCoreDNSConfigMap ord w node.Name (internalIP node.Addresses) removed).calls
          else []) ∧
    (updateHosts h ord w node removed).ret
        = (none, if h.modCoreDNS then
            (updateCoreDNSConfigMap ord w node.Name (internalIP node.Addresses) removed).ret
          else none) := by
  unfold updateHosts
  cases removed <;> cases hm : h.modCoreDNS <;> cases hdel : w.deleteErr <;>
    simp [removeNodePassword, hdel] <;>
    cases hr : (updateCoreDNSConfigMap ord w node.Name (internalIP node.Addresses) _).ret <;>
    simp [hr]

/-! ## Lemmas: the shape of a serialized blob -/

theorem serialize_eq_flatten (es : GoMap) : serialize es = (es.map recordLine).flatten := by
  induction es with
  | nil => rfl
  | cons e es ih =>
    rw [serialize_cons, ih]
    simp [recordLine, hostLine]

theorem serialize_eq_nil_iff (es : GoMap) : serialize es = [] ↔ es = [] := by
  cases es with
  | nil => simp [serialize_nil]
  | cons e es =>
    rw [serialize_cons]
    simp [hostLine]

theorem getLast?_serialize_cons (e : Str × Str) (es : GoMap) :
    (serialize (e :: es)).getLast? = some '\n' := by
  induction es generalizing e with
  | nil =>
    rw [serialize_cons, serialize_nil, List.getLast?_append]
    simp
  | cons e' es ih =>
    rw [serialize_cons, List.getLast?_append, List.getLast?_cons, ih e']
    simp

theorem not_newline_of_wellFormed (s : Str) (h : WellFormed s) : '\n' ∉ s := by
  intro hm
  have := h.2 _ hm
  simp [isSpace_newline] at this

theorem newlineFree_of_wellFormedTable (t : GoMap) (h : WellFormedTable t) : NewlineFree t :=
  fun e he => ⟨not_newline_of_wellFormed _ (h e he).1, not_newline_of_wellFormed _ (h e he).2⟩

theorem newlineFree_perm (t₁ t₂ : GoMap) (hp : t₁.Perm t₂) (h : NewlineFree t₂) :
    NewlineFree t₁ :=
  fun e he => h e (hp.mem_iff.1 he)

theorem newlineFree_set (m : GoMap) (k v : Str) (hm : NewlineFree m) (hk : '\n' ∉ k)
    (hv : '\n' ∉ v) : NewlineFree (GoMap.set m k v) := by
  intro e he
  rcases mem_set m k v e he with h | h
  · subst h
    exact ⟨hk, hv⟩
  · exact hm e h

/-- The lines of the serialization of a table without newlines in its
entries: one line `address hostname` per entry, then the empty piece after the
last newline. -/
theorem Split_serialize_newlineFree (es : GoMap) (hf : NewlineFree es) :
    Split (serialize es) '\n' = es.map hostLine ++ [[]] := by
  induction es with
  | nil => simp [serialize, Split]
  | cons e es ih =>
    have he := hf e (by simp)
    have hes : NewlineFree es := fun x hx => hf x (by simp [hx])
    have hline : '\n' ∉ hostLine e := by
      unfold hostLine
      intro hm
      rcases List.mem_append.1 hm with hm | hm
      · exact he.2 hm
      · rcases List.mem_cons.1 hm with hm | hm
        · exact absurd hm (by decide)
        · exact he.1 hm
    rw [serialize_cons, Split_append_sep _ _ _ hline, ih hes]
    simp

theorem hostOn_hostLine (e : Str × Str) (h1 : WellFormed e.1) (h2 : WellFormed e.2) :
    hostOn (hostLine e) = some e.1 := by
  simp [hostOn, Fields_hostLine e h1 h2]

theorem filterMap_hostOn_hostLines (es : GoMap) (hw : WellFormedTable es) :
    (es.map hostLine).filterMap hostOn = es.map Prod.fst := by
  induction es with
  | nil => rfl
  | cons e es ih =>
    have he := hw e (by simp)
    have hes : WellFormedTable es := fun x hx => hw x (by simp [hx])
    rw [List.map_cons, List.filterMap_cons, hostOn_hostLine e he.1 he.2, ih hes]
    simp

/-- The hostnames on the lines of a serialized well-formed table are its keys. -/
theorem hostnamesOf_serialize (es : GoMap) (hw : WellFormedTable es) :
    hostnamesOf (serialize es) = es.map Prod.fst := by
  unfold hostnamesOf
  rw [Split_serialize es hw, List.filterMap_append, filterMap_hostOn_hostLines es hw]
  simp [hostOn, Fields_nil]

/-- The table a pass hands to the serialization loop is built by the
specified `parse` from fields, plus the event's pair for a non-removal: its
hostnames are distinct, and its entries are well-formed when the event's are. -/
theorem written_table_props (blob n a : Str) (removed : Bool) (m : GoMap)
    (hm : m = (if removed then GoMap.delete (parse blob) n else parse blob)) :
    DistinctKeys (if removed then m else GoMap.set m n a) ∧
    (WellFormed n → (removed = false → WellFormed a) →
      WellFormedTable (if removed then m else GoMap.set m n a)) ∧
    ((removed = true ∨ ('\n' ∉ n ∧ '\n' ∉ a)) →
      NewlineFree (if removed then m else GoMap.set m n a)) := by
  subst hm
  cases removed with
  | true =>
    simp only [if_true]
    have hw := wellFormedTable_delete _ n (wellFormedTable_parse blob)
    exact ⟨distinctKeys_delete _ n (distinctKeys_parse blob), fun _ _ => hw,
      fun _ => newlineFree_of_wellFormedTable _ hw⟩
  | false =>
    simp only [Bool.false_eq_true, if_false]
    refine ⟨distinctKeys_set _ n a (distinctKeys_parse blob), ?_, ?_⟩
    · intro hn ha
      exact wellFormedTable_set _ n a (wellFormedTable_parse blob) hn (ha trivial)
    · intro h
      rcases h with h | h
      · simp at h
      · exact newlineFree_set _ n a (newlineFree_of_wellFormedTable _ (wellFormedTable_parse blob))
          h.1 h.2

/-! ## Lemmas: malformed lines -/

theorem not_mem_of_mem_Split (s : Str) (sep : Char) : ∀ l ∈ Split s sep, sep ∉ l := by
  induction s with
  | nil =>
    intro l hl
    simp only [Split, List.mem_singleton] at hl
    subst hl
    simp
  | cons c cs ih =>
    intro l hl
    rw [Split] at hl
    by_cases hc : c = sep
    · rw [if_pos hc] at hl
      rcases List.mem_cons.1 hl with h | h
      · subst h
        simp
      · exact ih l h
    · rw [if_neg hc] at hl
      cases hs : Split cs sep with
      | nil => exact absurd hs (Split_ne_nil cs sep)
      | cons piece pieces =>
        rw [hs] at hl ih
        rcases List.mem_cons.1 hl with h | h
        · subst h
          intro hm
          rcases List.mem_cons.1 hm with hm | hm
          · exact hc hm.symm
          · exact ih piece (by simp) hm
        · exact ih l (List.mem_cons_of_mem _ h)

theorem Split_of_not_mem (l : Str) (sep : Char) (h : sep ∉ l) : Split l sep = [l] := by
  induction l with
  | nil => rfl
  | cons c cs ih =>
    have hc : c ≠ sep := fun e => h (by simp [e])
    have hcs : sep ∉ cs := fun e => h (by simp [e])
    rw [Split, if_neg hc, ih hcs]

theorem Split_Join (ls : List Str) (sep : Char) (hne : ls ≠ []) (h : ∀ l ∈ ls, sep ∉ l) :
    Split (Join ls sep) sep = ls := by
  induction ls with
  | nil => exact absurd rfl hne
  | cons l rest ih =>
    cases rest with
    | nil => exact Split_of_not_mem l sep (h l (by simp))
    | cons l' rest' =>
      rw [Join, Split_append_sep _ _ _ (h l (by simp)),
        ih (by simp) (fun x hx => h x (List.mem_cons_of_mem _ hx))]

theorem hasTwoFields_iff (line : Str) :
    hasTwoFields line = true ↔ ∃ ip host, Fields line = [ip, host] := by
  unfold hasTwoFields
  rw [decide_eq_true_iff]
  constructor
  · intro h
    rcases hf : Fields line with _ | ⟨x, _ | ⟨y, _ | ⟨z, r⟩⟩⟩
    · rw [hf] at h
      simp at h
    · rw [hf] at h
      simp at h
    · exact ⟨x, y, rfl⟩
    · rw [hf] at h
      simp at h
  · rintro ⟨ip, host, hf⟩
    rw [hf]
    rfl

theorem hasTwoFields_nil : hasTwoFields [] = false := by decide

/-- The warnings of a pass: one record for each malformed line, in order. -/
theorem warnings_eq_map_filter (lines : List Str) :
    warnings lines
      = (lines.filter isMalformed).map
          (fun l => LogRecord.Warnf "Unknown format for hosts line [%s]".data [l]) := by
  induction lines with
  | nil => rfl
  | cons line rest ih =>
    rw [warnings_cons, ih]
    rcases line_cases line with hl | ⟨ip, host, hf⟩ | ⟨hl, hf⟩
    · subst hl
      simp [lineWarning_blank, isMalformed]
    · have h2 : hasTwoFields line = true := (hasTwoFields_iff line).2 ⟨ip, host, hf⟩
      simp [lineWarning_pair line ip host hf, isMalformed, h2]
    · have h2 : hasTwoFields line = false := by
        cases hq : hasTwoFields line with
        | false => rfl
        | true =>
          obtain ⟨ip, host, hf2⟩ := (hasTwoFields_iff line).1 hq
          exact absurd hf2 (hf ip host)
      simp [lineWarning_bad line hl hf, isMalformed, h2, hl]

/-- A pass that runs to the end over some lines builds the same table, without
a warning, over those lines with every line deleted that does not have
exactly two fields; its own warnings are those of the lines. -/
theorem scanLines_filter (n a : Str) (r : Bool) (lines : List Str) (m m' : GoMap)
    (logs logs' other : List LogRecord)
    (h : scanLines n a r lines m logs = Scan.finished m' logs') :
    scanLines n a r (lines.filter hasTwoFields) m other = Scan.finished m' other ∧
    logs' = logs ++ warnings lines := by
  induction lines generalizing m logs with
  | nil =>
    simp only [scanLines, Scan.finished.injEq] at h
    simp [scanLines, warnings, h.1, h.2]
  | cons line rest ih =>
    rw [warnings_cons]
    rcases line_cases line with hl | ⟨ip, host, hf⟩ | ⟨hl, hf⟩
    · subst hl
      rw [scanLines_blank] at h
      rw [List.filter_cons, hasTwoFields_nil, lineWarning_blank]
      simpa using ih m logs h
    · have h2 : hasTwoFields line = true := (hasTwoFields_iff line).2 ⟨ip, host, hf⟩
      rw [scanLines_pair n a r line ip host rest m logs hf] at h
      rw [List.filter_cons, h2, if_pos rfl, scanLines_pair n a r line ip host _ m other hf,
        lineWarning_pair line ip host hf]
      by_cases hh : host = n
      · rw [if_pos hh] at h ⊢
        cases r with
        | true =>
          simp only [if_true] at h ⊢
          simpa using ih m logs h
        | false =>
          simp only [Bool.false_eq_true, if_false] at h ⊢
          by_cases hip : ip = a
          · rw [if_pos hip] at h
            simp at h
          · rw [if_neg hip] at h ⊢
            simpa using ih _ logs h
      · rw [if_neg hh] at h ⊢
        simpa using ih _ logs h
    · have h2 : hasTwoFields line = false := by
        cases hq : hasTwoFields line with
        | false => rfl
        | true =>
          obtain ⟨ip, host, hf2⟩ := (hasTwoFields_iff line).1 hq
          exact absurd hf2 (hf ip host)
      rw [scanLines_bad n a r line rest m logs hl hf] at h
      rw [List.filter_cons, h2, lineWarning_bad line hl hf]
      have := ih m _ h
      simpa using this

/-- The lines of the cleaned blob, as the line loop sees them. -/
theorem scanLines_cleaned (n a : Str) (r : Bool) (blob : Str) (m : GoMap)
    (logs : List LogRecord) :
    scanLines n a r (Split (cleaned blob) '\n') m logs
      = scanLines n a r ((Split blob '\n').filter hasTwoFields) m logs := by
  unfold cleaned
  cases hfl : (Split blob '\n').filter hasTwoFields with
  | nil => simp [Join, Split, scanLines]
  | cons l rest =>
    rw [Split_Join (l :: rest) '\n' (by simp)]
    intro x hx
    rw [← hfl] at hx
    exact not_mem_of_mem_Split blob '\n' x (List.mem_of_mem_filter hx)

/-! ## Lemmas: blobs without duplicate hostnames -/

theorem hostOn_eq_some_iff (line host : Str) :
    hostOn line = some host ↔ ∃ ip, Fields line = [ip, host] := by
  unfold hostOn
  split
  · rename_i ip h hf
    rw [hf]
    simp
  · rename_i hf
    constructor
    · intro e
      simp at e
    · rintro ⟨ip, e⟩
      exact absurd e (hf ip host)

theorem filterMap_addressOn_of_not_mem (lines : List Str) (n : Str)
    (h : n ∉ lines.filterMap hostOn) : lines.filterMap (addressOn n) = [] := by
  rw [List.filterMap_eq_nil_iff]
  intro l hl
  cases hq : addressOn n l with
  | none => rfl
  | some ip =>
    exfalso
    apply h
    rw [List.mem_filterMap]
    exact ⟨l, hl, (hostOn_eq_some_iff l n).2 ⟨ip, (addressOn_eq_some_iff n l ip).1 hq⟩⟩

/-- Over lines with pairwise distinct hostnames, a line `a n` is the only
well-formed line for `n`. -/
theorem filterMap_addressOn_of_nodup (lines : List Str) (n a line : Str)
    (hnd : (lines.filterMap hostOn).Nodup) (hl : line ∈ lines) (hf : Fields line = [a, n]) :
    lines.filterMap (addressOn n) = [a] := by
  induction lines with
  | nil => simp at hl
  | cons x rest ih =>
    rw [List.filterMap_cons] at hnd ⊢
    cases hx : hostOn x with
    | none =>
      rw [hx] at hnd
      have hxa : addressOn n x = none := by
        cases hq : addressOn n x with
        | none => rfl
        | some ip =>
          have := (hostOn_eq_some_iff x n).2 ⟨ip, (addressOn_eq_some_iff n x ip).1 hq⟩
          rw [hx] at this
          simp at this
      rw [hxa]
      rcases List.mem_cons.1 hl with h | h
      · subst h
        have := (hostOn_eq_some_iff line n).2 ⟨a, hf⟩
        rw [hx] at this
        simp at this
      · exact ih hnd h
    | some host =>
      rw [hx] at hnd
      simp only [List.nodup_cons] at hnd
      obtain ⟨ip, hfx⟩ := (hostOn_eq_some_iff x host).1 hx
      rcases List.mem_cons.1 hl with h | h
      · subst h
        rw [hf] at hfx
        simp only [List.cons.injEq, and_true] at hfx
        rw [(addressOn_eq_some_iff n line a).2 hf]
        simp only
        rw [← hfx.2] at hnd
        rw [filterMap_addressOn_of_not_mem rest n hnd.1]
      · have hne : host ≠ n := by
          intro e
          subst e
          apply hnd.1
          rw [List.mem_filterMap]
          exact ⟨line, h, (hostOn_eq_some_iff line host).2 ⟨a, hf⟩⟩
        have hxa : addressOn n x = none := by
          cases hq : addressOn n x with
          | none => rfl
          | some ip' =>
            have := (addressOn_eq_some_iff n x ip').1 hq
            rw [hfx] at this
            simp only [List.cons.injEq, and_true] at this
            exact absurd this.2 hne
        rw [hxa]
        exact ih hnd.2 h

/-- Over a blob without duplicate hostnames the early return of the line loop
agrees with the specified table: a line `a n` exists exactly when `parse`
maps `n` to `a`. -/
theorem match_iff_find_parse (blob n a : Str) (hnd : (hostnamesOf blob).Nodup) :
    (∃ l ∈ Split blob '\n', Fields l = [a, n]) ↔ GoMap.find (parse blob) n = some a := by
  rw [find_parse]
  unfold addressesFor
  constructor
  · rintro ⟨l, hl, hf⟩
    rw [filterMap_addressOn_of_nodup _ n a l hnd hl hf]
    rfl
  · intro h
    have hmem := List.mem_of_getLast?_eq_some h
    rw [List.mem_filterMap] at hmem
    obtain ⟨l, hl, hq⟩ := hmem
    exact ⟨l, hl, (addressOn_eq_some_iff n l a).1 hq⟩

theorem find_applyEvent (t : GoMap) (n a : Str) (removed : Bool) (k : Str) :
    GoMap.find (applyEvent t n a removed) k
      = if k = n then (if removed then none else some a) else GoMap.find t k := by
  unfold applyEvent
  cases removed with
  | true =>
    simp only [if_true]
    rw [find_delete]
  | false =>
    simp only [Bool.false_eq_true, if_false]
    rw [find_set]
    by_cases hk : k = n
    · simp [hk]
    · simp [hk, Ne.symm hk]

/-- One pass at the level of the table, over a fetched blob without duplicate
hostnames, with fetch and update succeeding and a well-formed event: the
collaborators keep succeeding, the stored blob still has no duplicate
hostnames, and its specified table is the old one with the event applied. -/
theorem pass_applies_event (ord : RangeOrder) (w : World) (cm : ConfigMap) (n a : Str)
    (removed : Bool) (hget : w.getErr = none) (hcm : w.configMap = some cm)
    (hupd : w.updateErr = none) (hnd : (hostnamesOf (index cm.Data NodeHosts)).Nodup)
    (hn : WellFormed n) (ha : removed = false → WellFormed a) :
    ∃ cm', (updateCoreDNSConfigMap ord w n a removed).world.getErr = none ∧
      (updateCoreDNSConfigMap ord w n a removed).world.configMap = some cm' ∧
      (updateCoreDNSConfigMap ord w n a removed).world.updateErr = none ∧
      (hostnamesOf (index cm'.Data NodeHosts)).Nodup ∧
      ∀ k, GoMap.find (parse (index cm'.Data NodeHosts)) k
        = GoMap.find (applyEvent (parse (index cm.Data NodeHosts)) n a removed) k := by
  have hprops := written_table_props (index cm.Data NodeHosts) n a removed _ rfl
  have hwritten : ∀ m, m = (if removed then GoMap.delete (parse (index cm.Data NodeHosts)) n
        else parse (index cm.Data NodeHosts)) →
      (hostnamesOf (index (withTable ord cm (if removed then m else GoMap.set m n a)).Data
        NodeHosts)).Nodup ∧
      ∀ k, GoMap.find (parse (index (withTable ord cm
          (if removed then m else GoMap.set m n a)).Data NodeHosts)) k
        = GoMap.find (applyEvent (parse (index cm.Data NodeHosts)) n a removed) k := by
    intro m hm
    subst hm
    have hp := ord.perm (if removed then (if removed then
      GoMap.delete (parse (index cm.Data NodeHosts)) n else parse (index cm.Data NodeHosts))
      else GoMap.set (if removed then GoMap.delete (parse (index cm.Data NodeHosts)) n
        else parse (index cm.Data NodeHosts)) n a)
    have hwf := hprops.2.1 hn ha
    have hd := hprops.1
    rw [index_withTable]
    refine ⟨?_, ?_⟩
    · rw [hostnamesOf_serialize _ (wellFormedTable_perm _ _ hp hwf)]
      exact distinctKeys_perm _ _ hp hd
    · intro k
      rw [find_parse_serialize_enum ord _ hwf hd]
      unfold applyEvent
      cases removed <;> simp
  cases removed with
  | true =>
    have hev : ¬(a = [] ∧ true = false) := fun h => by simp at h
    have hscan := scanLines_removed_blob n a (index cm.Data NodeHosts)
    have hout := updateCoreDNSConfigMap_of_finished ord w cm n a true _ _ hev hget hcm hscan
    rw [hupd] at hout
    have hw := hwritten (GoMap.delete (parse (index cm.Data NodeHosts)) n) (by simp)
    refine ⟨_, ?_, ?_, ?_, hw.1, hw.2⟩
    · rw [hout]
      exact hget
    · rw [hout]
    · rw [hout]
  | false =>
    have hane : a ≠ [] := (ha rfl).1
    rcases updateCoreDNSConfigMap_added_cases ord w cm n a hane hget hcm with
      ⟨_, hout⟩ | ⟨hex, logs, hout⟩
    · rw [hupd] at hout
      have hw := hwritten (parse (index cm.Data NodeHosts)) (by simp)
      refine ⟨_, ?_, ?_, ?_, hw.1, hw.2⟩
      · rw [hout]
        exact hget
      · rw [hout]
        simp
      · rw [hout]
    · refine ⟨cm, ?_, ?_, ?_, hnd, ?_⟩
      · rw [hout]
        exact hget
      · rw [hout]
        exact hcm
      · rw [hout]
        exact hupd
      · intro k
        have hfind := (match_iff_find_parse _ n a hnd).1 hex
        rw [find_applyEvent]
        by_cases hk : k = n
        · subst hk
          simp [hfind]
        · simp [hk]

/-! ## Lemmas: reading a written blob back -/

/-- In a blob without duplicate hostnames the well-formed lines for a
hostname are at most one: the last one, if any. -/
theorem addressesFor_of_nodup (blob h : Str) (hnd : (hostnamesOf blob).Nodup) :
    addressesFor blob h = ((addressesFor blob h).getLast?).toList := by
  cases hq : (addressesFor blob h).getLast? with
  | none =>
    rw [List.getLast?_eq_none_iff] at hq
    rw [hq]
    rfl
  | some ip =>
    have hmem := List.mem_of_getLast?_eq_some hq
    unfold addressesFor at hmem ⊢
    rw [List.mem_filterMap] at hmem
    obtain ⟨l, hl, hl2⟩ := hmem
    rw [filterMap_addressOn_of_nodup _ h ip l hnd hl ((addressOn_eq_some_iff h l ip).1 hl2)]
    rfl

/-- The table a pass hands to the serialization loop has non-empty,
whitespace-free entries whenever the pair a non-removal adds is so. -/
theorem wellFormedTable_written (blob n a : Str) (removed : Bool) (m : GoMap)
    (hm : m = (if removed then GoMap.delete (parse blob) n else parse blob))
    (hev : removed = false → WellFormed n ∧ WellFormed a) :
    WellFormedTable (if removed then m else GoMap.set m n a) := by
  subst hm
  cases removed with
  | true =>
    simp only [if_true]
    exact wellFormedTable_delete _ n (wellFormedTable_parse blob)
  | false =>
    simp only [Bool.false_eq_true, if_false]
    exact wellFormedTable_set _ n a (wellFormedTable_parse blob) (hev rfl).1 (hev rfl).2

/-! ## The claims -/

/-- C1 (round trip): for a table `t` with distinct hostnames whose hostnames
and addresses are non-empty and whitespace-free, and any order `ord` in which
the serialization loop enumerates it, the line loop of
`updateCoreDNSConfigMap` run over the serialized blob, for an event hostname
not in `t`, ends with a table that has exactly the entries of `t` and maps
every hostname as `t` does, without a warning. -/
theorem roundtrip_scan_serialize (t : GoMap) (ord : RangeOrder) (nodeName nodeAddress : Str)
    (removed : Bool) (hd : DistinctKeys t) (hw : WellFormedTable t)
    (hn : GoMap.find t nodeName = none) :
    ∃ m, scanLines nodeName nodeAddress removed (Split (serialize (ord.enum t)) '\n') [] []
        = Scan.finished m [] ∧
      m.Perm t ∧ ∀ k, GoMap.find m k = GoMap.find t k := by
  have hp := ord.perm t
  have hw' : WellFormedTable (ord.enum t) := wellFormedTable_perm _ _ hp hw
  have hd' : DistinctKeys (ord.enum t) := distinctKeys_perm _ _ hp hd
  have hn' : GoMap.find (ord.enum t) nodeName = none := by
    rw [find_perm _ _ hp hd]
    exact hn
  refine ⟨ord.enum t, ?_, hp, fun k => find_perm _ _ hp hd k⟩
  have hwarn : warnings (Split (serialize (ord.enum t)) '\n') = [] := by
    rw [Split_serialize _ hw', warnings_hostLines _ hw']
  cases removed with
  | true =>
    rw [scanLines_removed_blob, parse_serialize _ hw' hd', delete_of_absent _ _ hn', hwarn]
  | false =>
    have hno := no_match_serialize (ord.enum t) hw' hd' nodeName nodeAddress (by simp [hn'])
    rw [scanLines_added_finished _ _ _ [] [] hno, hwarn]
    have := parse_serialize _ hw' hd'
    unfold parse at this
    rw [this]
    rfl

/-- Witness of C1 at the two-node table enumerated in reverse order. -/
theorem roundtrip_scan_serialize_witness :
    ∃ m, scanLines "node-c".data "10.0.0.3".data false
          (Split (serialize (RangeOrder.reversed.enum twoNodes)) '\n') [] []
        = Scan.finished m [] ∧
      m.Perm twoNodes ∧ ∀ k, GoMap.find m k = GoMap.find twoNodes k :=
  roundtrip_scan_serialize twoNodes RangeOrder.reversed "node-c".data "10.0.0.3".data false
    (by decide) (by decide) (by decide)

/-- C2 (removal): when the fetch and the update succeed, a removal event for
`n` makes exactly one update, which stores the fetched config map with
`NodeHosts` set to the serialization of `parse(blob)` with the key `n`
deleted; the stored blob parses to that table, which has no key `n`; no error
is returned. -/
theorem removal_writes_parse_without_node (ord : RangeOrder) (w : World) (cm : ConfigMap)
    (n addr : Str) (hget : w.getErr = none) (hcm : w.configMap = some cm)
    (hupd : w.updateErr = none) :
    (updateCoreDNSConfigMap ord w n addr true).ret = none ∧
    (updateCoreDNSConfigMap ord w n addr true).calls
      = [getCall, Call.Update (withTable ord cm (GoMap.delete (parse (index cm.Data NodeHosts)) n))] ∧
    (updateCoreDNSConfigMap ord w n addr true).world.configMap
      = some (withTable ord cm (GoMap.delete (parse (index cm.Data NodeHosts)) n)) ∧
    (∀ k, GoMap.find (parse (storedBlob (updateCoreDNSConfigMap ord w n addr true).world)) k
      = GoMap.find (GoMap.delete (parse (index cm.Data NodeHosts)) n) k) ∧
    GoMap.find (parse (storedBlob (updateCoreDNSConfigMap ord w n addr true).world)) n = none := by
  have hev : ¬(addr = [] ∧ true = false) := fun h => by simp at h
  have hscan := scanLines_removed_blob n addr (index cm.Data NodeHosts)
  have hfind := find_parse_stored_after_removal ord w cm n addr hget hcm hupd
  refine ⟨?_, ?_, ?_, hfind, ?_⟩
  · rw [updateCoreDNSConfigMap_of_finished ord w cm n addr true _ _ hev hget hcm hscan, hupd]
  · rw [updateCoreDNSConfigMap_of_finished ord w cm n addr true _ _ hev hget hcm hscan, hupd]
    rfl
  · rw [updateCoreDNSConfigMap_of_finished ord w cm n addr true _ _ hev hget hcm hscan, hupd]
    rfl
  · rw [hfind n, find_delete]
    simp

/-- Witness of C2: removing `node-b` from the scenario blob. -/
theorem removal_writes_parse_without_node_witness :
    GoMap.find (parse (storedBlob
      (updateCoreDNSConfigMap RangeOrder.insertion (worldOf scenarioBlob) "node-b".data
        "10.0.0.2".data true).world)) "node-b".data = none :=
  (removal_writes_parse_without_node RangeOrder.insertion (worldOf scenarioBlob)
    ⟨some [(NodeHosts, scenarioBlob)]⟩ "node-b".data "10.0.0.2".data rfl rfl rfl).2.2.2.2

/-- C3 (idempotence): with fetch and update succeeding, applying the same
non-removal event `(n, a)` (both non-empty and whitespace-free) twice in
sequence, under any two enumeration orders, makes the second application
only fetch (no update call), return no error, and leave the world, hence the
stored blob, exactly as the first application left it. -/
theorem add_twice_second_is_noop (ord₁ ord₂ : RangeOrder) (w : World) (cm : ConfigMap)
    (n a : Str) (hn : WellFormed n) (ha : WellFormed a) (hget : w.getErr = none)
    (hcm : w.configMap = some cm) (hupd : w.updateErr = none) :
    (updateCoreDNSConfigMap ord₂ (updateCoreDNSConfigMap ord₁ w n a false).world n a false).calls
      = [getCall] ∧
    (updateCoreDNSConfigMap ord₂ (updateCoreDNSConfigMap ord₁ w n a false).world n a false).ret
      = none ∧
    (updateCoreDNSConfigMap ord₂ (updateCoreDNSConfigMap ord₁ w n a false).world n a false).world
      = (updateCoreDNSConfigMap ord₁ w n a false).world ∧
    storedBlob
        (updateCoreDNSConfigMap ord₂ (updateCoreDNSConfigMap ord₁ w n a false).world n a false).world
      = storedBlob (updateCoreDNSConfigMap ord₁ w n a false).world := by
  -- after the first application the stored blob has a line `a n`
  have hfirst : ∃ cm₁, (updateCoreDNSConfigMap ord₁ w n a false).world.getErr = none ∧
      (updateCoreDNSConfigMap ord₁ w n a false).world.configMap = some cm₁ ∧
      ∃ l ∈ Split (index cm₁.Data NodeHosts) '\n', Fields l = [a, n] := by
    rcases updateCoreDNSConfigMap_added_cases ord₁ w cm n a ha.1 hget hcm with
      ⟨_, h1⟩ | ⟨hex, logs, h1⟩
    · have hp := ord₁.perm (GoMap.set (parse (index cm.Data NodeHosts)) n a)
      have hw := wellFormedTable_set _ n a (wellFormedTable_parse (index cm.Data NodeHosts)) hn ha
      have hw' := wellFormedTable_perm _ _ hp hw
      have hmem : (n, a) ∈ ord₁.enum (GoMap.set (parse (index cm.Data NodeHosts)) n a) := by
        apply hp.mem_iff.2
        apply mem_of_find
        rw [find_set]
        simp
      refine ⟨withTable ord₁ cm (GoMap.set (parse (index cm.Data NodeHosts)) n a), ?_, ?_, ?_⟩
      · rw [h1, hupd]
        exact hget
      · rw [h1, hupd]
      · rw [index_withTable, Split_serialize _ hw']
        exact ⟨hostLine (n, a), List.mem_append_left _ (List.mem_map.2 ⟨(n, a), hmem, rfl⟩),
          Fields_hostLine (n, a) hn ha⟩
    · refine ⟨cm, ?_, ?_, hex⟩
      · rw [h1]
        exact hget
      · rw [h1]
        exact hcm
  obtain ⟨cm₁, hget₁, hcm₁, l, hl, hf⟩ := hfirst
  rcases updateCoreDNSConfigMap_added_cases ord₂ (updateCoreDNSConfigMap ord₁ w n a false).world
      cm₁ n a ha.1 hget₁ hcm₁ with ⟨hno, _⟩ | ⟨_, logs, h2⟩
  · exact absurd hf (hno l hl)
  · rw [h2]
    exact ⟨rfl, rfl, rfl, rfl⟩

/-- Witness of C3: `node-c` at `10.0.0.3` announced twice over the scenario blob. -/
theorem add_twice_second_is_noop_witness :
    (updateCoreDNSConfigMap RangeOrder.reversed
        (updateCoreDNSConfigMap RangeOrder.insertion (worldOf scenarioBlob) "node-c".data
          "10.0.0.3".data false).world "node-c".data "10.0.0.3".data false).calls
      = [getCall] :=
  (add_twice_second_is_noop RangeOrder.insertion RangeOrder.reversed (worldOf scenarioBlob)
    ⟨some [(NodeHosts, scenarioBlob)]⟩ "node-c".data "10.0.0.3".data (by decide) (by decide)
    rfl rfl rfl).1

/-- C4 (add without address): for every world and hostname, a non-removal
event with the empty address calls no collaborator (neither fetch nor
update), leaves the world unchanged and returns no error. -/
theorem add_without_address_is_noop (ord : RangeOrder) (w : World) (n : Str) :
    (updateCoreDNSConfigMap ord w n [] false).calls = [] ∧
    (updateCoreDNSConfigMap ord w n [] false).world = w ∧
    (updateCoreDNSConfigMap ord w n [] false).ret = none := by
  simp [updateCoreDNSConfigMap]

/-- C5 (upsert): when the stored blob is a serialization, in any order, of a
table `t` with distinct, well-formed hostnames and addresses, a non-removal
event `(n, a)` with `n`, `a` well-formed and `t[n] ≠ a` makes an update call
whose blob parses to `t` with `n` mapped to `a` and every other hostname as in
`t`; when the update succeeds that blob is stored and no error is returned. -/
theorem upsert_writes_updated_table (ord : RangeOrder) (w : World) (cm : ConfigMap)
    (t es : GoMap) (n a : Str) (hd : DistinctKeys t) (hw : WellFormedTable t)
    (hes : es.Perm t) (hn : WellFormed n) (ha : WellFormed a)
    (hne : GoMap.find t n ≠ some a) (hget : w.getErr = none) (hcm : w.configMap = some cm)
    (hblob : index cm.Data NodeHosts = serialize es) :
    (updateCoreDNSConfigMap ord w n a false).calls
      = [getCall, Call.Update (withTable ord cm (GoMap.set es n a))] ∧
    (∀ k, GoMap.find (parse (index (withTable ord cm (GoMap.set es n a)).Data NodeHosts)) k
      = if k = n then some a else GoMap.find t k) ∧
    (w.updateErr = none →
      (updateCoreDNSConfigMap ord w n a false).world.configMap
        = some (withTable ord cm (GoMap.set es n a)) ∧
      (updateCoreDNSConfigMap ord w n a false).ret = none) := by
  have hwes := wellFormedTable_perm _ _ hes hw
  have hdes := distinctKeys_perm _ _ hes hd
  have hparse : parse (index cm.Data NodeHosts) = es := by
    rw [hblob, parse_serialize es hwes hdes]
  have hne' : GoMap.find es n ≠ some a := by
    rw [find_perm _ _ hes hd]
    exact hne
  have hp := ord.perm (GoMap.set es n a)
  have hd2 := distinctKeys_set es n a hdes
  have hw2 := wellFormedTable_set es n a hwes hn ha
  rcases updateCoreDNSConfigMap_added_cases ord w cm n a ha.1 hget hcm with
    ⟨_, h1⟩ | ⟨⟨l, hl, hf⟩, _⟩
  · rw [h1, hparse]
    refine ⟨by cases w.updateErr <;> rfl, ?_, ?_⟩
    · intro k
      rw [index_withTable, parse_serialize _ (wellFormedTable_perm _ _ hp hw2)
        (distinctKeys_perm _ _ hp hd2), find_perm _ _ hp hd2, find_set, find_perm _ _ hes hd]
      by_cases hk : k = n
      · simp [hk]
      · simp [hk, Ne.symm hk]
    · intro hupd
      rw [hupd]
      exact ⟨rfl, rfl⟩
  · exfalso
    rw [hblob] at hl
    exact no_match_serialize es hwes hdes n a hne' l hl hf

/-- Witness of C5: `node-b` moves to `10.0.0.3` in the two-node table. -/
theorem upsert_writes_updated_table_witness :
    GoMap.find (parse (index (withTable RangeOrder.reversed ⟨some [(NodeHosts, scenarioBlob)]⟩
      (GoMap.set twoNodes "node-b".data "10.0.0.3".data)).Data NodeHosts)) "node-b".data
      = some "10.0.0.3".data := by
  have h := (upsert_writes_updated_table RangeOrder.reversed (worldOf scenarioBlob)
    ⟨some [(NodeHosts, scenarioBlob)]⟩ twoNodes twoNodes "node-b".data "10.0.0.3".data
    (by decide) (by decide) (List.Perm.refl _) (by decide) (by decide) (by decide)
    rfl rfl (by decide)).2.1 "node-b".data
  simpa using h

/-- C6 as stated fails: over the scenario blob, which has no line for
`node-c`, a removal event for `node-c` still makes an update call (writing
the same two entries back). -/
theorem removal_of_absent_still_updates :
    addressesFor scenarioBlob "node-c".data = [] ∧
    (updateCoreDNSConfigMap RangeOrder.insertion (worldOf scenarioBlob) "node-c".data [] true).calls
      = [getCall, Call.Update ⟨some [(NodeHosts, scenarioBlob)]⟩] := by
  decide

/-- C6 (amended): for every fetched blob with no well-formed line for `n`, a
removal event for `n` makes an update call that writes the specified table of
the blob back, so the table is unchanged as a mapping; when the update
succeeds no error is returned and that blob is stored. -/
theorem removal_of_absent_rewrites_same_table (ord : RangeOrder) (w : World) (cm : ConfigMap)
    (n addr : Str) (hget : w.getErr = none) (hcm : w.configMap = some cm)
    (habsent : addressesFor (index cm.Data NodeHosts) n = []) :
    (updateCoreDNSConfigMap ord w n addr true).calls
      = [getCall, Call.Update (withTable ord cm (parse (index cm.Data NodeHosts)))] ∧
    (∀ k, GoMap.find
        (parse (index (withTable ord cm (parse (index cm.Data NodeHosts))).Data NodeHosts)) k
      = GoMap.find (parse (index cm.Data NodeHosts)) k) ∧
    (w.updateErr = none →
      (updateCoreDNSConfigMap ord w n addr true).ret = none ∧
      (updateCoreDNSConfigMap ord w n addr true).world.configMap
        = some (withTable ord cm (parse (index cm.Data NodeHosts)))) := by
  have hev : ¬(addr = [] ∧ true = false) := fun h => by simp at h
  have hfind : GoMap.find (parse (index cm.Data NodeHosts)) n = none := by
    rw [find_parse, habsent]
    rfl
  have hscan := scanLines_removed_blob n addr (index cm.Data NodeHosts)
  rw [delete_of_absent _ _ hfind] at hscan
  rw [updateCoreDNSConfigMap_of_finished ord w cm n addr true _ _ hev hget hcm hscan]
  have hp := ord.perm (parse (index cm.Data NodeHosts))
  have hd := distinctKeys_parse (index cm.Data NodeHosts)
  have hw := wellFormedTable_parse (index cm.Data NodeHosts)
  refine ⟨?_, ?_, ?_⟩
  · rcases Option.eq_none_or_eq_some w.updateErr with hu | ⟨e, hu⟩ <;> rw [hu] <;> rfl
  · intro k
    rw [index_withTable, parse_serialize _ (wellFormedTable_perm _ _ hp hw)
      (distinctKeys_perm _ _ hp hd)]
    exact find_perm _ _ hp hd k
  · intro hu
    rw [hu]
    exact ⟨rfl, rfl⟩

/-- Witness of amended C6: removing `node-c` over the scenario blob. -/
theorem removal_of_absent_rewrites_same_table_witness :
    (updateCoreDNSConfigMap RangeOrder.reversed (worldOf scenarioBlob) "node-c".data [] true).calls
      = [getCall, Call.Update (withTable RangeOrder.reversed ⟨some [(NodeHosts, scenarioBlob)]⟩
          (parse (index (some [(NodeHosts, scenarioBlob)]) NodeHosts)))] :=
  (removal_of_absent_rewrites_same_table RangeOrder.reversed (worldOf scenarioBlob)
    ⟨some [(NodeHosts, scenarioBlob)]⟩ "node-c".data [] rfl rfl (by decide)).1

/-- C7 as stated fails: when the fetch fails with an error, an event that
requires reconciliation gets a nil error back from `updateCoreDNSConfigMap`,
and `(nil, nil)` from `updateHosts` and `onChange` with the integration
enabled. -/
theorem fetch_failure_returns_nil :
    (updateCoreDNSConfigMap RangeOrder.insertion worldNotFound "node-a".data "10.0.0.1".data
      false).ret = none ∧
    (updateHosts ⟨true⟩ RangeOrder.insertion worldNotFound nodeA false).ret = (none, none) ∧
    (onChange ⟨true⟩ RangeOrder.insertion worldNotFound "node-a".data (some nodeA)).ret
      = (none, none) := by
  decide

/-- C7 (amended): for every event that requires reconciliation (a removal, or
a non-removal with a non-empty address), if the fetch fails (an error, or a
nil config map) then `updateCoreDNSConfigMap` only fetches, logs one warning
wrapping the fetch error, leaves the world unchanged and returns nil; so
`updateHosts`, `onChange` and `onRemove` return `(nil, nil)`. -/
theorem fetch_failure_is_logged_not_returned (h : handler) (ord : RangeOrder) (w : World)
    (key : Str) (node : Node) (removed : Bool)
    (hev : ¬(internalIP node.Addresses = [] ∧ removed = false))
    (hfail : w.getErr ≠ none ∨ w.configMap = none) :
    updateCoreDNSConfigMap ord w node.Name (internalIP node.Addresses) removed
      = ⟨w, [getCall],
          [LogRecord.Warn (Wrap w.getErr "Unable to fetch coredns config map".data)], none⟩ ∧
    (updateHosts h ord w node removed).ret = (none, none) ∧
    (updateHosts h ord w node removed).world = w ∧
    (removed = false → (onChange h ord w key (some node)).ret = (none, none)) ∧
    (removed = true → (onRemove h ord w key node).ret = (none, none)) := by
  have hout : updateCoreDNSConfigMap ord w node.Name (internalIP node.Addresses) removed
      = ⟨w, [getCall],
          [LogRecord.Warn (Wrap w.getErr "Unable to fetch coredns config map".data)], none⟩ := by
    unfold updateCoreDNSConfigMap
    rw [if_neg hev]
    rcases Option.eq_none_or_eq_some w.getErr with hget | ⟨err, hget⟩
    · rcases hfail with hf | hf
      · exact absurd hget hf
      · simp only [hget, hf]
        rfl
    · simp only [hget]
      rfl
  have hhosts : (updateHosts h ord w node removed).ret = (none, none) ∧
      (updateHosts h ord w node removed).world = w := by
    unfold updateHosts
    cases removed <;> cases hm : h.modCoreDNS <;> cases hdel : w.deleteErr <;>
      simp [removeNodePassword, hdel, hout]
  refine ⟨hout, hhosts.1, hhosts.2, ?_, ?_⟩
  · intro hr
    subst hr
    exact hhosts.1
  · intro hr
    subst hr
    exact hhosts.1

/-- Witness of amended C7: `node-a` changes while the fetch fails. -/
theorem fetch_failure_is_logged_not_returned_witness :
    (updateHosts ⟨true⟩ RangeOrder.insertion worldNotFound nodeA false).ret = (none, none) :=
  (fetch_failure_is_logged_not_returned ⟨true⟩ RangeOrder.insertion worldNotFound "node-a".data
    nodeA false (by decide) (Or.inl (by decide))).2.1

/-- C8 (update failure is surfaced): for every event of a node whose pass
reaches the write-back (makes an update call), if the update fails with the
error `e` then `updateCoreDNSConfigMap` returns exactly `e`, emits no publish
record (neither "Updated" nor "Removed"), leaves the world unchanged, and
`updateHosts` with the integration enabled returns `(nil, e)`. -/
theorem update_failure_is_returned (h : handler) (ord : RangeOrder) (w : World) (node : Node)
    (removed : Bool) (e : GoError) (written : ConfigMap) (hmod : h.modCoreDNS = true)
    (hupd : w.updateErr = some e)
    (hwrite : Call.Update written
      ∈ (updateCoreDNSConfigMap ord w node.Name (internalIP node.Addresses) removed).calls) :
    (updateCoreDNSConfigMap ord w node.Name (internalIP node.Addresses) removed).ret = some e ∧
    (∀ actionType pair, publishRecord actionType pair
      ∉ (updateCoreDNSConfigMap ord w node.Name (internalIP node.Addresses) removed).logs) ∧
    (updateCoreDNSConfigMap ord w node.Name (internalIP node.Addresses) removed).world = w ∧
    (updateHosts h ord w node removed).ret = (none, some e) := by
  obtain ⟨cm, m, _, _, _, _, _, hout⟩ :=
    updateCoreDNSConfigMap_written ord w node.Name (internalIP node.Addresses) removed written hwrite
  rw [hupd] at hout
  have hret : (updateHosts h ord w node removed).ret = (none, some e) := by
    unfold updateHosts
    cases removed <;> cases hdel : w.deleteErr <;>
      simp [removeNodePassword, hdel, hout, hmod]
  rw [hout]
  refine ⟨rfl, ?_, rfl, hret⟩
  intro actionType pair hmem
  obtain ⟨line, hline⟩ := mem_warnings _ _ hmem
  simp [publishRecord] at hline

/-- Witness of C8: `node-c` joins the scenario table while updates fail. -/
theorem update_failure_is_returned_witness :
    (updateHosts ⟨true⟩ RangeOrder.insertion worldConflict nodeC false).ret
      = (none, some ⟨"conflict".data⟩) :=
  (update_failure_is_returned ⟨true⟩ RangeOrder.insertion worldConflict nodeC false
    ⟨"conflict".data⟩
    (withTable RangeOrder.insertion ⟨some [(NodeHosts, scenarioBlob)]⟩
      (GoMap.set twoNodes "node-c".data "10.0.0.3".data))
    rfl rfl (by decide)).2.2.2

/-- C9 as stated fails: in the scenario (blob with `10.0.0.2 node-b`, removal
event for `node-b` carrying no address) the pass writes the table without
`node-b`, but its publish record names the pair ` node-b`, built from the
event's empty address, not `10.0.0.2 node-b`. -/
theorem removed_record_names_event_address :
    (updateCoreDNSConfigMap RangeOrder.insertion (worldOf scenarioBlob) "node-b".data [] true).logs
      = [publishRecord "Removed".data " node-b".data] ∧
    publishRecord "Removed".data "10.0.0.2 node-b".data
      ∉ (updateCoreDNSConfigMap RangeOrder.insertion (worldOf scenarioBlob) "node-b".data []
          true).logs ∧
    storedBlob (updateCoreDNSConfigMap RangeOrder.insertion (worldOf scenarioBlob) "node-b".data
      [] true).world = "10.0.0.1 node-a\n".data := by
  decide

/-- C9 (amended): with fetch and update succeeding, a removal event
`(n, a)` writes the table without `n` and emits, after the warnings of the
pass, exactly one publish record, with action "Removed" and the pair built
from the address the event itself carries, `a ++ " " ++ n`; a non-removal
event that makes an update call emits one with action "Updated" and the pair
`a ++ " " ++ n`. -/
theorem publish_record_names_event_pair (ord : RangeOrder) (w : World) (cm : ConfigMap)
    (n a : Str) (hget : w.getErr = none) (hcm : w.configMap = some cm)
    (hupd : w.updateErr = none) :
    ((updateCoreDNSConfigMap ord w n a true).logs
        = warnings (Split (index cm.Data NodeHosts) '\n')
          ++ [publishRecord "Removed".data (a ++ " ".data ++ n)] ∧
      GoMap.find (parse (storedBlob (updateCoreDNSConfigMap ord w n a true).world)) n = none) ∧
    ((∃ written, Call.Update written ∈ (updateCoreDNSConfigMap ord w n a false).calls) →
      (updateCoreDNSConfigMap ord w n a false).logs
        = warnings (Split (index cm.Data NodeHosts) '\n')
          ++ [publishRecord "Updated".data (a ++ " ".data ++ n)]) := by
  constructor
  · refine ⟨?_, by rw [find_parse_stored_after_removal ord w cm n a hget hcm hupd n, find_delete]; simp⟩
    have hev : ¬(a = [] ∧ true = false) := fun h => by simp at h
    have hscan := scanLines_removed_blob n a (index cm.Data NodeHosts)
    rw [updateCoreDNSConfigMap_of_finished ord w cm n a true _ _ hev hget hcm hscan, hupd]
    rfl
  · rintro ⟨written, hwrite⟩
    obtain ⟨cm', m, _, hcm', _, _, _, hout⟩ :=
      updateCoreDNSConfigMap_written ord w n a false written hwrite
    have hcmeq : cm' = cm := by
      rw [hcm] at hcm'
      exact (Option.some.inj hcm').symm
    subst hcmeq
    rw [hout, hupd]
    rfl

/-- Witness of amended C9: the scenario, with the event carrying no address. -/
theorem publish_record_names_event_pair_witness :
    (updateCoreDNSConfigMap RangeOrder.insertion (worldOf scenarioBlob) "node-b".data [] true).logs
      = warnings (Split (index (some [(NodeHosts, scenarioBlob)]) NodeHosts) '\n')
        ++ [publishRecord "Removed".data ([] ++ " ".data ++ "node-b".data)] :=
  (publish_record_names_event_pair RangeOrder.insertion (worldOf scenarioBlob)
    ⟨some [(NodeHosts, scenarioBlob)]⟩ "node-b".data [] rfl rfl rfl).1.1

/-- C10 as stated fails for an event whose address holds a newline: over the
blob `"10.0.0.1 h\n"`, which has no line for `zz`, the non-removal event
`(n, "6.6.6.6 zz\n1.1.1.1")` makes an update whose blob, in either
enumeration order, has the line `6.6.6.6 zz`, so the written table contains
the hostname `zz ≠ n` that the fetched blob never had. -/
theorem newline_in_address_adds_hostname :
    addressesFor "10.0.0.1 h\n".data "zz".data = [] ∧
    (updateCoreDNSConfigMap RangeOrder.insertion (worldOf "10.0.0.1 h\n".data) "n".data
        addressWithLine false).calls
      = [getCall, Call.Update ⟨some [(NodeHosts, "10.0.0.1 h\n6.6.6.6 zz\n1.1.1.1 n\n".data)]⟩] ∧
    GoMap.find (parse "10.0.0.1 h\n6.6.6.6 zz\n1.1.1.1 n\n".data) "zz".data
      = some "6.6.6.6".data ∧
    (updateCoreDNSConfigMap RangeOrder.reversed (worldOf "10.0.0.1 h\n".data) "n".data
        addressWithLine false).calls
      = [getCall, Call.Update ⟨some [(NodeHosts, "6.6.6.6 zz\n1.1.1.1 n\n10.0.0.1 h\n".data)]⟩] ∧
    GoMap.find (parse "6.6.6.6 zz\n1.1.1.1 n\n10.0.0.1 h\n".data) "zz".data
      = some "6.6.6.6".data := by
  decide

/-- C10 (amended): for every fetched blob, every removal event and every
non-removal event whose hostname and address are non-empty and
whitespace-free, and every hostname `h ≠ n`: whenever the pass makes an update
call, the blob it carries has a well-formed line for `h` if and only if the
fetched blob has one, it then has exactly one, with the address on the last
such line of the fetched blob, and its table maps `h` to that address. -/
theorem unrelated_entries_preserved (ord : RangeOrder) (w : World) (n a : Str) (removed : Bool)
    (h : Str) (written : ConfigMap) (hh : h ≠ n)
    (hev : removed = false → WellFormed n ∧ WellFormed a)
    (hwrite : Call.Update written ∈ (updateCoreDNSConfigMap ord w n a removed).calls) :
    ∃ cm, w.configMap = some cm ∧
      addressesFor (index written.Data NodeHosts) h
        = ((addressesFor (index cm.Data NodeHosts) h).getLast?).toList ∧
      GoMap.find (parse (index written.Data NodeHosts)) h
        = (addressesFor (index cm.Data NodeHosts) h).getLast? ∧
      (GoMap.find (parse (index written.Data NodeHosts)) h ≠ none
        ↔ ∃ l ∈ Split (index cm.Data NodeHosts) '\n', ∃ ip, Fields l = [ip, h]) := by
  obtain ⟨cm, m, _, hcm, _, hm, hw, _⟩ :=
    updateCoreDNSConfigMap_written ord w n a removed written hwrite
  have hp := ord.perm (if removed then m else GoMap.set m n a)
  have hwf := wellFormedTable_written _ n a removed m hm hev
  have hd := (written_table_props _ n a removed m hm).1
  have hblob : index written.Data NodeHosts
      = serialize (ord.enum (if removed then m else GoMap.set m n a)) := by
    rw [hw, index_withTable]
  have hnd : (hostnamesOf (index written.Data NodeHosts)).Nodup := by
    rw [hblob, hostnamesOf_serialize _ (wellFormedTable_perm _ _ hp hwf)]
    exact distinctKeys_perm _ _ hp hd
  have htable : GoMap.find (if removed then m else GoMap.set m n a) h
      = (addressesFor (index cm.Data NodeHosts) h).getLast? := by
    rw [← find_parse, hm]
    cases removed with
    | true => simp [find_delete, hh]
    | false => simp [find_set, Ne.symm hh]
  have hfind : GoMap.find (parse (index written.Data NodeHosts)) h
      = (addressesFor (index cm.Data NodeHosts) h).getLast? := by
    rw [hblob, find_parse_serialize_enum ord _ hwf hd, htable]
  refine ⟨cm, hcm, ?_, hfind, ?_⟩
  · rw [addressesFor_of_nodup _ h hnd, ← find_parse, hfind]
  · rw [hfind, Ne, List.getLast?_eq_none_iff, addressesFor_eq_nil_iff]
    constructor
    · intro hne
      by_contra hcon
      apply hne
      intro l hl ip hf
      exact hcon ⟨l, hl, ip, hf⟩
    · rintro ⟨l, hl, ip, hf⟩ hall
      exact hall l hl ip hf

/-- Witness of amended C10: `node-b` changes address; the written blob, in
reverse order, still has the one line of `node-a`. -/
theorem unrelated_entries_preserved_witness :
    ∃ cm, (worldOf scenarioBlob).configMap = some cm ∧
      addressesFor (index (withTable RangeOrder.reversed ⟨some [(NodeHosts, scenarioBlob)]⟩
          (GoMap.set twoNodes "node-b".data "10.0.0.9".data)).Data NodeHosts) "node-a".data
        = ((addressesFor (index cm.Data NodeHosts) "node-a".data).getLast?).toList ∧
      GoMap.find (parse (index (withTable RangeOrder.reversed ⟨some [(NodeHosts, scenarioBlob)]⟩
          (GoMap.set twoNodes "node-b".data "10.0.0.9".data)).Data NodeHosts)) "node-a".data
        = (addressesFor (index cm.Data NodeHosts) "node-a".data).getLast? ∧
      (GoMap.find (parse (index (withTable RangeOrder.reversed
          ⟨some [(NodeHosts, scenarioBlob)]⟩
          (GoMap.set twoNodes "node-b".data "10.0.0.9".data)).Data NodeHosts)) "node-a".data
          ≠ none
        ↔ ∃ l ∈ Split (index cm.Data NodeHosts) '\n', ∃ ip, Fields l = [ip, "node-a".data]) :=
  unrelated_entries_preserved RangeOrder.reversed (worldOf scenarioBlob) "node-b".data
    "10.0.0.9".data false "node-a".data
    (withTable RangeOrder.reversed ⟨some [(NodeHosts, scenarioBlob)]⟩
      (GoMap.set twoNodes "node-b".data "10.0.0.9".data))
    (by decide) (fun _ => ⟨by decide, by decide⟩) (by decide)

/-- C11 (address extraction): the address `updateHosts` hands to
`updateCoreDNSConfigMap` is the `Address` of the first entry of the node's
address list whose type is `InternalIP`; it is empty if and only if there is
no such entry or that first entry's address is itself empty; entries of other
types before it and any entries after it do not influence it. -/
theorem address_is_first_internalIP (h : handler) (ord : RangeOrder) (w : World) (node : Node)
    (removed : Bool) :
    internalIP node.Addresses = specAddress node.Addresses ∧
    (internalIP node.Addresses = [] ↔
      firstInternal node.Addresses = none
        ∨ ∃ e, firstInternal node.Addresses = some e ∧ e.Address = []) ∧
    (∀ pre e post, node.Addresses = pre ++ e :: post →
      (∀ x ∈ pre, x.AddrType ≠ "InternalIP".data) → e.AddrType = "InternalIP".data →
      internalIP node.Addresses = e.Address) ∧
    (h.modCoreDNS = true →
      (updateHosts h ord w node removed).world
        = (updateCoreDNSConfigMap ord w node.Name (specAddress node.Addresses) removed).world ∧
      (updateHosts h ord w node removed).ret
        = (none, (updateCoreDNSConfigMap ord w node.Name (specAddress node.Addresses)
            removed).ret)) := by
  have hspec := internalIP_eq_specAddress node.Addresses
  refine ⟨hspec, ?_, ?_, ?_⟩
  · rw [hspec]
    unfold specAddress
    cases hf : firstInternal node.Addresses with
    | none => simp
    | some e => simp
  · intro pre e post hsplit hpre he
    rw [hspec, hsplit]
    unfold specAddress
    rw [firstInternal_append pre post e hpre he]
  · intro hmod
    have hu := updateHosts_eq h ord w node removed
    rw [hmod, hspec] at hu
    exact ⟨by simpa using hu.1, by simpa using hu.2.2⟩

/-- Witness of C11: `node-b` lists a hostname entry, then `10.0.0.2`, then a
second internal address. -/
theorem address_is_first_internalIP_witness : internalIP nodeB.Addresses = "10.0.0.2".data :=
  (address_is_first_internalIP ⟨true⟩ RangeOrder.insertion (worldOf scenarioBlob) nodeB
    false).2.2.1 [⟨"Hostname".data, "node-b".data⟩] ⟨"InternalIP".data, "10.0.0.2".data⟩
    [⟨"InternalIP".data, "10.0.0.7".data⟩, ⟨"ExternalIP".data, "192.0.2.2".data⟩]
    rfl (by decide) rfl

/-- C12 (disabled integration): with `modCoreDNS` false, for every node and
both values of `removed`, `updateHosts` makes no fetch and no update (its only
collaborator call is the credential delete, once, with the node's name, and
only for a removal), leaves the world unchanged and returns `(nil, nil)`. -/
theorem disabled_integration_skips_store (h : handler) (ord : RangeOrder) (w : World)
    (node : Node) (removed : Bool) (hmod : h.modCoreDNS = false) :
    (updateHosts h ord w node removed).calls
      = (if removed then [Call.Delete node.Name] else []) ∧
    (updateHosts h ord w node removed).world = w ∧
    (updateHosts h ord w node removed).ret = (none, none) := by
  have hu := updateHosts_eq h ord w node removed
  rw [hmod] at hu
  exact ⟨by simpa using hu.2.1, by simpa using hu.1, by simpa using hu.2.2⟩

/-- Witness of C12: `node-a` is removed while the integration is disabled. -/
theorem disabled_integration_skips_store_witness :
    (updateHosts ⟨false⟩ RangeOrder.insertion (worldOf scenarioBlob) nodeA true).calls
      = (if true then [Call.Delete nodeA.Name] else []) :=
  (disabled_integration_skips_store ⟨false⟩ RangeOrder.insertion (worldOf scenarioBlob) nodeA
    true rfl).1

/-- C13 (credential cleanup is independent): for every removal event and
every world, the calls made (so whether and what table is written), the stored
config map afterwards and the value returned by `updateHosts` are the same
whether the credential delete fails (`d₁`, `d₂` arbitrary outcomes of it); and
`onChange` never calls the credential delete. -/
theorem credential_cleanup_is_independent (h : handler) (ord : RangeOrder) (w : World)
    (key : Str) (node : Node) (d₁ d₂ : Option GoError) :
    (updateHosts h ord { w with deleteErr := d₁ } node true).calls
      = (updateHosts h ord { w with deleteErr := d₂ } node true).calls ∧
    (updateHosts h ord { w with deleteErr := d₁ } node true).world.configMap
      = (updateHosts h ord { w with deleteErr := d₂ } node true).world.configMap ∧
    (updateHosts h ord { w with deleteErr := d₁ } node true).ret
      = (updateHosts h ord { w with deleteErr := d₂ } node true).ret ∧
    (∀ (changed : Option Node) (name : Str),
      Call.Delete name ∉ (onChange h ord w key changed).calls) := by
  have h₁ := updateHosts_eq h ord { w with deleteErr := d₁ } node true
  have h₂ := updateHosts_eq h ord { w with deleteErr := d₂ } node true
  rw [updateCoreDNSConfigMap_deleteErr] at h₁ h₂
  refine ⟨?_, ?_, ?_, ?_⟩
  · rw [h₁.2.1, h₂.2.1]
  · rw [h₁.1, h₂.1]
    cases h.modCoreDNS <;> rfl
  · rw [h₁.2.2, h₂.2.2]
  · intro changed name hmem
    cases changed with
    | none => simp [onChange] at hmem
    | some n =>
      have hu := (updateHosts_eq h ord w n false).2.1
      simp only [onChange] at hmem
      rw [hu] at hmem
      cases hm : h.modCoreDNS with
      | false => simp [hm] at hmem
      | true =>
        simp only [hm, Bool.false_eq_true, if_false, if_true, List.nil_append] at hmem
        rcases calls_of_updateCoreDNSConfigMap ord w n.Name (internalIP n.Addresses) false _ hmem
          with hc | ⟨written, hc⟩
        · simp [getCall] at hc
        · simp at hc

/-- C16 (address is irrelevant to removal): for every world and hostname,
the collaborator calls of a removal (whether an update happens and the config
map it carries), the world afterwards and the returned error are the same for
any two addresses the event may carry. -/
theorem removal_ignores_address (ord : RangeOrder) (w : World) (n a₁ a₂ : Str) :
    (updateCoreDNSConfigMap ord w n a₁ true).calls
      = (updateCoreDNSConfigMap ord w n a₂ true).calls ∧
    (updateCoreDNSConfigMap ord w n a₁ true).world
      = (updateCoreDNSConfigMap ord w n a₂ true).world ∧
    (updateCoreDNSConfigMap ord w n a₁ true).ret
      = (updateCoreDNSConfigMap ord w n a₂ true).ret := by
  have hev : ∀ a : Str, ¬(a = [] ∧ true = false) := fun a h => by simp at h
  rcases Option.eq_none_or_eq_some w.getErr with hget | ⟨err, hget⟩
  · rcases Option.eq_none_or_eq_some w.configMap with hcm | ⟨cm, hcm⟩
    · unfold updateCoreDNSConfigMap
      rw [if_neg (hev a₁), if_neg (hev a₂)]
      simp only [hget, hcm]
      exact ⟨trivial, trivial, trivial⟩
    · rw [updateCoreDNSConfigMap_of_finished ord w cm n a₁ true _ _ (hev a₁) hget hcm
          (scanLines_removed_blob n a₁ (index cm.Data NodeHosts)),
        updateCoreDNSConfigMap_of_finished ord w cm n a₂ true _ _ (hev a₂) hget hcm
          (scanLines_removed_blob n a₂ (index cm.Data NodeHosts))]
      rcases Option.eq_none_or_eq_some w.updateErr with hu | ⟨e, hu⟩ <;> rw [hu] <;>
        exact ⟨rfl, rfl, rfl⟩
  · unfold updateCoreDNSConfigMap
    rw [if_neg (hev a₁), if_neg (hev a₂)]
    simp only [hget]
    exact ⟨trivial, trivial, trivial⟩

/-- C18 (publication touches only `NodeHosts`): whenever a pass makes an
update call, the config map it carries has a non-nil data map that agrees
with the fetched one on every key other than `NodeHosts` (none added, removed
or changed); when the fetched data map is nil, the written one holds the
`NodeHosts` key only. -/
theorem update_touches_only_NodeHosts (ord : RangeOrder) (w : World) (n a : Str)
    (removed : Bool) (written : ConfigMap)
    (hwrite : Call.Update written ∈ (updateCoreDNSConfigMap ord w n a removed).calls) :
    ∃ cm data, w.configMap = some cm ∧ written.Data = some data ∧
      (∀ k, k ≠ NodeHosts → GoMap.find data k = GoMap.find (cm.Data.getD []) k) ∧
      GoMap.find data NodeHosts ≠ none ∧
      (cm.Data = none → ∃ blob, data = [(NodeHosts, blob)]) := by
  obtain ⟨cm, m, _, hcm, _, _, hw, _⟩ :=
    updateCoreDNSConfigMap_written ord w n a removed written hwrite
  refine ⟨cm, _, hcm, by rw [hw]; rfl, ?_, ?_, ?_⟩
  · intro k hk
    rw [find_set, if_neg (Ne.symm hk)]
  · rw [find_set]
    simp
  · intro hnil
    rw [hnil]
    exact ⟨_, rfl⟩

/-- Witness of C18: a config map with a `Corefile` next to `NodeHosts`. -/
theorem update_touches_only_NodeHosts_witness :
    ∃ cm data,
      (⟨some ⟨some [("Corefile".data, ". {}".data), (NodeHosts, scenarioBlob)]⟩, none, none,
        none⟩ : World).configMap = some cm ∧
      (⟨some [("Corefile".data, ". {}".data), (NodeHosts, "10.0.0.1 node-a\n".data)]⟩ :
        ConfigMap).Data = some data ∧
      (∀ k, k ≠ NodeHosts → GoMap.find data k = GoMap.find (cm.Data.getD []) k) ∧
      GoMap.find data NodeHosts ≠ none ∧
      (cm.Data = none → ∃ blob, data = [(NodeHosts, blob)]) :=
  update_touches_only_NodeHosts RangeOrder.insertion
    ⟨some ⟨some [("Corefile".data, ". {}".data), (NodeHosts, scenarioBlob)]⟩, none, none, none⟩
    "node-b".data [] true
    ⟨some [("Corefile".data, ". {}".data), (NodeHosts, "10.0.0.1 node-a\n".data)]⟩
    (by decide)

/-- C14 as stated fails for an event whose address holds a newline: over an
empty blob the non-removal event `(n, "1\n2")` writes the table with the one
entry `n`, and the blob written for it, `"1\n2 n\n"`, has two lines. -/
theorem newline_in_address_adds_line :
    scanLines "n".data "1\n2".data false (Split (storedBlob (worldOf [])) '\n') [] []
      = Scan.finished [] [] ∧
    (GoMap.set [] "n".data "1\n2".data).length = 1 ∧
    (updateCoreDNSConfigMap RangeOrder.insertion (worldOf []) "n".data "1\n2".data false).calls
      = [getCall, Call.Update ⟨some [(NodeHosts, "1\n2 n\n".data)]⟩] ∧
    (Split "1\n2 n\n".data '\n').dropLast.length = 2 := by
  decide

/-- C14 (amended): whenever a pass makes an update call, the blob it carries
is the concatenation of the records `address ++ " " ++ hostname ++ "\n"` over
a permutation of the entries of the table the pass built, and nothing else; it
is empty exactly when the table is empty and otherwise ends with a newline;
and when the event is a removal or neither its hostname nor its address
contains a newline, the lines of the blob are exactly the entries' lines
`address hostname`, followed by the empty piece after the last newline, so the
blob has exactly as many lines as the table has entries. -/
theorem written_blob_format (ord : RangeOrder) (w : World) (n a : Str) (removed : Bool)
    (written : ConfigMap)
    (hwrite : Call.Update written ∈ (updateCoreDNSConfigMap ord w n a removed).calls) :
    ∃ cm m logs table, w.configMap = some cm ∧
      scanLines n a removed (Split (index cm.Data NodeHosts) '\n') [] [] = Scan.finished m logs ∧
      table = (if removed then m else GoMap.set m n a) ∧
      (ord.enum table).Perm table ∧
      index written.Data NodeHosts = ((ord.enum table).map recordLine).flatten ∧
      (index written.Data NodeHosts = [] ↔ table = []) ∧
      (table ≠ [] → (index written.Data NodeHosts).getLast? = some '\n') ∧
      ((removed = true ∨ ('\n' ∉ n ∧ '\n' ∉ a)) →
        Split (index written.Data NodeHosts) '\n' = (ord.enum table).map hostLine ++ [[]] ∧
        (Split (index written.Data NodeHosts) '\n').dropLast.length = table.length) := by
  obtain ⟨cm, m, _, hcm, hscan, hm, hw, _⟩ :=
    updateCoreDNSConfigMap_written ord w n a removed written hwrite
  have hp := ord.perm (if removed then m else GoMap.set m n a)
  have hblob : index written.Data NodeHosts
      = serialize (ord.enum (if removed then m else GoMap.set m n a)) := by
    rw [hw, index_withTable]
  refine ⟨cm, m, _, _, hcm, hscan, rfl, hp, ?_, ?_, ?_, ?_⟩
  · rw [hblob, serialize_eq_flatten]
  · rw [hblob, serialize_eq_nil_iff]
    constructor
    · intro he
      rw [he] at hp
      exact List.Perm.eq_nil hp.symm
    · intro he
      rw [he]
      exact List.Perm.eq_nil (ord.perm [])
  · intro hne
    rw [hblob]
    cases hen : ord.enum (if removed then m else GoMap.set m n a) with
    | nil =>
      rw [hen] at hp
      exact absurd (List.Perm.eq_nil hp.symm) hne
    | cons e es => exact getLast?_serialize_cons e es
  · intro hev
    have hsplit := Split_serialize_newlineFree _
      (newlineFree_perm _ _ hp ((written_table_props _ n a removed m hm).2.2 hev))
    rw [hblob, hsplit]
    refine ⟨rfl, ?_⟩
    rw [List.dropLast_concat, List.length_map]
    exact hp.length_eq

/-- Witness of amended C14: `node-c` joins the scenario table, enumerated in
reverse; the written blob has three lines. -/
theorem written_blob_format_witness :
    ∃ table, index (withTable RangeOrder.reversed ⟨some [(NodeHosts, scenarioBlob)]⟩
          (GoMap.set twoNodes "node-c".data "10.0.0.3".data)).Data NodeHosts
        = ((RangeOrder.reversed.enum table).map recordLine).flatten ∧
      (Split (index (withTable RangeOrder.reversed ⟨some [(NodeHosts, scenarioBlob)]⟩
          (GoMap.set twoNodes "node-c".data "10.0.0.3".data)).Data NodeHosts) '\n').dropLast.length
        = table.length := by
  obtain ⟨_, _, _, table, _, _, _, _, hflat, _, _, hlines⟩ :=
    written_blob_format RangeOrder.reversed (worldOf scenarioBlob) "node-c".data "10.0.0.3".data
      false
      (withTable RangeOrder.reversed ⟨some [(NodeHosts, scenarioBlob)]⟩
        (GoMap.set twoNodes "node-c".data "10.0.0.3".data))
      (by decide)
  exact ⟨table, hflat, (hlines (Or.inr ⟨by decide, by decide⟩)).2⟩

/-- C19 (hostname uniqueness of every published blob): for every stored blob
and every event with a non-empty whitespace-free hostname and, for a
non-removal, a non-empty whitespace-free address, whenever a pass makes an
update call, every line of the blob it carries (every piece before the last
newline; the piece after it is empty) has exactly two whitespace-separated
fields, and the hostnames on its lines are pairwise distinct. -/
theorem written_blob_hostnames_unique (ord : RangeOrder) (w : World) (n a : Str)
    (removed : Bool) (written : ConfigMap) (hn : WellFormed n)
    (ha : removed = false → WellFormed a)
    (hwrite : Call.Update written ∈ (updateCoreDNSConfigMap ord w n a removed).calls) :
    (∀ l ∈ (Split (index written.Data NodeHosts) '\n').dropLast, (Fields l).length = 2) ∧
    (Split (index written.Data NodeHosts) '\n').getLast? = some [] ∧
    (hostnamesOf (index written.Data NodeHosts)).length
      = (Split (index written.Data NodeHosts) '\n').dropLast.length ∧
    (hostnamesOf (index written.Data NodeHosts)).Nodup := by
  obtain ⟨cm, m, _, _, _, hm, hw, _⟩ :=
    updateCoreDNSConfigMap_written ord w n a removed written hwrite
  have hp := ord.perm (if removed then m else GoMap.set m n a)
  have hprops := written_table_props _ n a removed m hm
  have hwf := wellFormedTable_perm _ _ hp (hprops.2.1 hn ha)
  have hd := distinctKeys_perm _ _ hp hprops.1
  have hblob : index written.Data NodeHosts
      = serialize (ord.enum (if removed then m else GoMap.set m n a)) := by
    rw [hw, index_withTable]
  rw [hblob, hostnamesOf_serialize _ hwf, Split_serialize _ hwf]
  refine ⟨?_, by simp, by simp, hd⟩
  intro l hl
  rw [List.dropLast_concat] at hl
  obtain ⟨e, he, rfl⟩ := List.mem_map.1 hl
  rw [Fields_hostLine e (hwf e he).1 (hwf e he).2]
  rfl

/-- Witness of C19: `node-b` is removed from a blob with a duplicate and a
malformed line. -/
theorem written_blob_hostnames_unique_witness :
    (hostnamesOf (index (withTable RangeOrder.insertion
      ⟨some [(NodeHosts, "10.0.0.1 node-a\nbad\n10.0.0.5 node-a\n10.0.0.2 node-b\n".data)]⟩
      [("node-a".data, "10.0.0.5".data)]).Data NodeHosts)).Nodup :=
  (written_blob_hostnames_unique RangeOrder.insertion
    (worldOf "10.0.0.1 node-a\nbad\n10.0.0.5 node-a\n10.0.0.2 node-b\n".data) "node-b".data []
    true
    (withTable RangeOrder.insertion
      ⟨some [(NodeHosts, "10.0.0.1 node-a\nbad\n10.0.0.5 node-a\n10.0.0.2 node-b\n".data)]⟩
      [("node-a".data, "10.0.0.5".data)])
    (by decide) (by decide) (by decide)).2.2.2

/-- C15 (malformed-line tolerance): when the line loop runs to the end over a
blob (as every removal pass does), the table it builds is the one it builds,
without any warning, over the blob with every line deleted that does not have
exactly two whitespace-separated fields; its warnings are exactly one record
per non-empty line without exactly two fields, in order, and none for an empty
line; and such a pass over a fetched blob returns an error only if the update
does. -/
theorem malformed_lines_are_dropped (blob n a : Str) (removed : Bool) (m : GoMap)
    (logs : List LogRecord)
    (hscan : scanLines n a removed (Split blob '\n') [] [] = Scan.finished m logs) :
    scanLines n a removed (Split (cleaned blob) '\n') [] [] = Scan.finished m [] ∧
    logs = ((Split blob '\n').filter isMalformed).map
      (fun l => LogRecord.Warnf "Unknown format for hosts line [%s]".data [l]) ∧
    (∃ table warns, scanLines n a true (Split blob '\n') [] [] = Scan.finished table warns) ∧
    (∀ (ord : RangeOrder) (w : World) (cm : ConfigMap), ¬(a = [] ∧ removed = false) →
      w.getErr = none → w.configMap = some cm → index cm.Data NodeHosts = blob →
      (updateCoreDNSConfigMap ord w n a removed).ret = w.updateErr) := by
  have hf := scanLines_filter n a removed (Split blob '\n') [] m [] logs [] hscan
  refine ⟨?_, ?_, ⟨_, _, scanLines_removed_blob n a blob⟩, ?_⟩
  · rw [scanLines_cleaned]
    exact hf.1
  · rw [hf.2, List.nil_append, warnings_eq_map_filter]
  · intro ord w cm hev hget hcm hblob
    rw [← hblob] at hscan
    rw [updateCoreDNSConfigMap_of_finished ord w cm n a removed m logs hev hget hcm hscan]
    rcases Option.eq_none_or_eq_some w.updateErr with hu | ⟨e, hu⟩ <;> rw [hu]

/-- Witness of C15: the specification's example `"bad\n10.0.0.1 host1\n"`
gives the table `{"host1": "10.0.0.1"}` and one warning, for the line `bad`. -/
theorem malformed_lines_are_dropped_witness :
    scanLines "node-x".data [] true (Split (cleaned malformedBlob) '\n') [] []
      = Scan.finished [("host1".data, "10.0.0.1".data)] [] ∧
    [LogRecord.Warnf "Unknown format for hosts line [%s]".data ["bad".data]]
      = ((Split malformedBlob '\n').filter isMalformed).map
        (fun l => LogRecord.Warnf "Unknown format for hosts line [%s]".data [l]) :=
  ⟨(malformed_lines_are_dropped malformedBlob "node-x".data [] true
      [("host1".data, "10.0.0.1".data)]
      [LogRecord.Warnf "Unknown format for hosts line [%s]".data ["bad".data]] (by decide)).1,
    (malformed_lines_are_dropped malformedBlob "node-x".data [] true
      [("host1".data, "10.0.0.1".data)]
      [LogRecord.Warnf "Unknown format for hosts line [%s]".data ["bad".data]] (by decide)).2.1⟩

/-- C17 fails on the code: over the blob `"10.0.0.1 n\n10.0.0.2 n\n"`, whose
specified table (later records overwrite earlier ones) maps `n` to
`10.0.0.2`, the non-removal event `(n, 10.0.0.1)` meets the first line,
returns early and makes no update, although `parse(blob)` does not map `n` to
`10.0.0.1`; the stored blob keeps both lines. -/
theorem duplicate_line_skips_publication :
    GoMap.find (parse duplicateBlob) "n".data = some "10.0.0.2".data ∧
    GoMap.find (parse duplicateBlob) "n".data ≠ some "10.0.0.1".data ∧
    (updateCoreDNSConfigMap RangeOrder.insertion (worldOf duplicateBlob) "n".data
      "10.0.0.1".data false).calls = [getCall] ∧
    (updateCoreDNSConfigMap RangeOrder.insertion (worldOf duplicateBlob) "n".data
      "10.0.0.1".data false).ret = none ∧
    storedBlob (updateCoreDNSConfigMap RangeOrder.insertion (worldOf duplicateBlob) "n".data
      "10.0.0.1".data false).world = duplicateBlob := by
  decide

/-- C20 (events for different nodes commute): over a fetched blob in which no
hostname occurs on two well-formed lines, with fetch and update always
succeeding, for two events (each a removal, or a non-removal with a non-empty
whitespace-free address) for distinct non-empty whitespace-free hostnames,
applying the first and then the second leaves a stored blob whose table maps
every hostname as the blob left by applying the second and then the first,
whatever the enumeration orders of the four passes. -/
theorem distinct_nodes_commute (o₁ o₂ o₃ o₄ : RangeOrder) (w : World) (cm : ConfigMap)
    (n₁ a₁ : Str) (r₁ : Bool) (n₂ a₂ : Str) (r₂ : Bool)
    (hget : w.getErr = none) (hcm : w.configMap = some cm) (hupd : w.updateErr = none)
    (hnd : (hostnamesOf (index cm.Data NodeHosts)).Nodup)
    (hn₁ : WellFormed n₁) (ha₁ : r₁ = false → WellFormed a₁)
    (hn₂ : WellFormed n₂) (ha₂ : r₂ = false → WellFormed a₂) (hne : n₁ ≠ n₂) (k : Str) :
    GoMap.find (parse (storedBlob (updateCoreDNSConfigMap o₂
        (updateCoreDNSConfigMap o₁ w n₁ a₁ r₁).world n₂ a₂ r₂).world)) k
      = GoMap.find (parse (storedBlob (updateCoreDNSConfigMap o₄
        (updateCoreDNSConfigMap o₃ w n₂ a₂ r₂).world n₁ a₁ r₁).world)) k := by
  obtain ⟨c₁, g₁, hc₁, u₁, d₁, f₁⟩ := pass_applies_event o₁ w cm n₁ a₁ r₁ hget hcm hupd hnd hn₁ ha₁
  obtain ⟨c₁₂, _, hc₁₂, _, _, f₁₂⟩ :=
    pass_applies_event o₂ _ c₁ n₂ a₂ r₂ g₁ hc₁ u₁ d₁ hn₂ ha₂
  obtain ⟨c₂, g₂, hc₂, u₂, d₂, f₂⟩ := pass_applies_event o₃ w cm n₂ a₂ r₂ hget hcm hupd hnd hn₂ ha₂
  obtain ⟨c₂₁, _, hc₂₁, _, _, f₂₁⟩ :=
    pass_applies_event o₄ _ c₂ n₁ a₁ r₁ g₂ hc₂ u₂ d₂ hn₁ ha₁
  unfold storedBlob
  rw [hc₁₂, hc₂₁]
  simp only
  rw [f₁₂ k, f₂₁ k, find_applyEvent, find_applyEvent, f₁ k, f₂ k, find_applyEvent,
    find_applyEvent]
  by_cases hk₁ : k = n₁
  · have hk₂ : k ≠ n₂ := fun e => hne (hk₁.symm.trans e)
    simp [hk₁, hk₂, hne]
  · by_cases hk₂ : k = n₂
    · simp [hk₁, hk₂, Ne.symm hne]
    · simp [hk₁, hk₂]

/-- Witness of C20: over the scenario blob, `node-a` is removed and `node-c`
joins, in either order. -/
theorem distinct_nodes_commute_witness :
    GoMap.find (parse (storedBlob (updateCoreDNSConfigMap RangeOrder.reversed
        (updateCoreDNSConfigMap RangeOrder.insertion (worldOf scenarioBlob) "node-a".data []
          true).world "node-c".data "10.0.0.3".data false).world)) "node-c".data
      = GoMap.find (parse (storedBlob (updateCoreDNSConfigMap RangeOrder.insertion
        (updateCoreDNSConfigMap RangeOrder.reversed (worldOf scenarioBlob) "node-c".data
          "10.0.0.3".data false).world "node-a".data [] true).world)) "node-c".data :=
  distinct_nodes_commute RangeOrder.insertion RangeOrder.reversed RangeOrder.reversed
    RangeOrder.insertion (worldOf scenarioBlob) ⟨some [(NodeHosts, scenarioBlob)]⟩
    "node-a".data [] true "node-c".data "10.0.0.3".data false rfl rfl rfl (by decide)
    (by decide) (by decide) (by decide) (by decide) (by decide) "node-c".data

end NodeController
